import Mathlib

/-!
# Host and route table core of the embedded HTTP engine (`src/host.c`, `src/actionHandler.c`)

A shallow embedding of `host.c` and of the action handler.  The C program works on heap objects reached through
pointers: hosts, routes, `MprList` route tables and `MprHash` streaming tables.  Each kind of
object lives here in its own store, a function from addresses (natural numbers) to values, and
every C function becomes a function from a store to a store.  Pointer equality of the C code is
equality of addresses, so sharing between a cloned host and its parent is visible in the model.

The functions of the portable runtime library that `host.c` calls (`smatch`, `schr`, `sstarts`,
`stok`, the `MprList` and the `MprHash` functions) stand here with their documented behaviour.
Definitions come first; the theorems follow, the ones that settle a numbered claim of the
specification carrying the number of the claim in their comment.
-/

namespace Http1

/-! ## Strings of the portable runtime -/

/-- The runtime's `smatch(s1, s2)`: two possibly-NULL strings are equal.  A NULL string only
matches a NULL string. -/
def smatch (s1 s2 : Option String) : Bool := s1 == s2

/-- The runtime's `schr(s, c)`: does the character occur in the string (the C function returns a
pointer to the first occurrence, of which `httpGetStreaming` only tests whether it is NULL). -/
def schr (s : String) (c : Char) : Bool := s.data.contains c

/-- The runtime's `sstarts(str, prefix)`: false when either pointer is NULL, otherwise whether
`str` begins with the given text. -/
def sstarts (str pre : Option String) : Bool :=
  match str, pre with
  | some s, some p => p.data.isPrefixOf s.data
  | _, _ => false

/-- The runtime's `stok(str, delim, 0)` for the one-character delimiter set used in `host.c`:
the `strtok`-style tokenizer.  Leading delimiter characters are skipped, NULL is returned when
nothing is left, otherwise the first token is the text up to the next delimiter. -/
def stok (str : String) (delim : Char) : Option String :=
  match str.data.dropWhile (fun c => c == delim) with
  | [] => none
  | c :: cs => some (String.mk ((c :: cs).takeWhile (fun x => x != delim)))

/-! ## Lists of the portable runtime (`MprList` holding route pointers) -/

/-- The runtime's error code returned by `mprLookupItem` for an absent item; `host.c` only tests
its sign. -/
def MPR_ERR_CANT_FIND : Int := -1

/-- The runtime's `mprLookupItem(list, item)`: index of the first occurrence of the pointer, or a
negative error code. -/
def mprLookupItem : List Nat → Nat → Int
  | [], _ => MPR_ERR_CANT_FIND
  | x :: xs, item =>
    if x = item then 0
    else
      let i := mprLookupItem xs item
      if i < 0 then i else i + 1

/-- The runtime's `mprGetLastItem(list)`: NULL for an empty list. -/
def mprGetLastItem (lp : List Nat) : Option Nat := lp.getLast?

/-- The runtime's `mprGetListLength(list)`. -/
def mprGetListLength (lp : List Nat) : Nat := lp.length

/-- The runtime's `mprGetItem(list, index)`: NULL when the index is out of range. -/
def mprGetItem (lp : List Nat) (index : Nat) : Option Nat := lp[index]?

/-- The runtime's `mprInsertItemAtPos(list, index, item)`: the items from `index` on move up by
one; returns the list and the position of the new item. -/
def mprInsertItemAtPos (lp : List Nat) (index : Nat) (item : Nat) : List Nat × Nat :=
  (lp.take index ++ item :: lp.drop index, index)

/-- The runtime's `mprAddItem(list, item)`: append; returns the list and the position of the new
item. -/
def mprAddItem (lp : List Nat) (item : Nat) : List Nat × Nat :=
  (lp ++ [item], lp.length)

/-! ## Hash tables of the portable runtime (`MprHash` keyed by strings) -/

/-- One `MprKey` of the streaming table: the key, the data pointer (the URI prefix or NULL) and
the `type` field, in which `httpSetStreaming` stores the enable flag. -/
structure MprKey where
  key : String
  data : Option String
  type : Bool
deriving DecidableEq, Repr

/-- The runtime's `mprLookupKeyEntry(hash, key)`: the entry stored under exactly this key; a NULL
key finds nothing. -/
def mprLookupKeyEntry (hash : List MprKey) (key : Option String) : Option MprKey :=
  match key with
  | none => none
  | some k => hash.find? (fun kp => kp.key == k)

/-- The runtime's `mprAddKey(hash, key, ptr)` on a table without the unique-keys flag: an
existing entry for the key keeps its place and its `type` and gets the new data pointer; otherwise
a new entry with `type` zero is added. -/
def mprAddKey : List MprKey → String → Option String → List MprKey
  | [], key, ptr => [{ key := key, data := ptr, type := false }]
  | kp :: rest, key, ptr =>
    if kp.key == key then { kp with data := ptr } :: rest
    else kp :: mprAddKey rest key ptr

/-- The assignment `kp->type = enable` on the entry that `mprAddKey` returned. -/
def setKeyType : List MprKey → String → Bool → List MprKey
  | [], _, _ => []
  | kp :: rest, key, enable =>
    if kp.key == key then { kp with type := enable } :: rest
    else kp :: setKeyType rest key enable

/-! ## Heap objects -/

/-- Modelled from the spec: the `HttpRoute` record, declared in `http.h`, which is not among the
sources.  Only the fields that `host.c` reads or writes are kept: `name`, `pattern`,
`startSegment`, `nextGroup` (an index, or none while unset), the `parent` route, the `trace`
settings and the owning `host`.  Pointers that may be NULL are options. -/
structure HttpRoute where
  name : Option String
  pattern : String
  startSegment : Option String
  nextGroup : Option Nat
  parent : Option Nat
  trace : Option Nat
  host : Option Nat
deriving DecidableEq, Repr

/-- Modelled from the spec: the `HttpHost` record, declared in `http.h`, which is not among the
sources, with the fields that `host.c` uses.  `routes` is the address of the host's `MprList` and
`streams` the address of its `MprHash`; two hosts holding the same address share the table. -/
structure HttpHost where
  name : Option String
  parent : Option Nat
  responseCache : Option Nat
  routes : Nat
  defaultRoute : Option Nat
  defaultEndpoint : Option Nat
  secureEndpoint : Option Nat
  flags : Nat
  streams : Nat
deriving DecidableEq, Repr

/-- Modelled from the spec: the host flag constants of `http.h`, which is not among the
sources. -/
def HTTP_HOST_VHOST : Nat := 0x100

/-- Modelled from the spec: the host flag constants of `http.h`, which is not among the
sources. -/
def HTTP_HOST_NO_TRACE : Nat := 0x10

/-- The memory the functions of `host.c` work on: the route objects, the `MprList` objects, the
`MprHash` objects and the host objects, each with the next unused address, the number of caches
created, the registry of hosts kept by `httpAddHost`, and the static `defaultHost`. -/
structure Http where
  routes : Nat → HttpRoute
  lists : Nat → List Nat
  nextList : Nat
  hashes : Nat → List MprKey
  nextHash : Nat
  hosts : Nat → HttpHost
  nextHost : Nat
  nextCache : Nat
  hostList : List Nat
  defaultHost : Option Nat

/-- A zeroed host object, as `mprAllocObj` returns it. -/
def zeroHost : HttpHost :=
  { name := none, parent := none, responseCache := none, routes := 0, defaultRoute := none,
    defaultEndpoint := none, secureEndpoint := none, flags := 0, streams := 0 }

/-- The route table of a host: the contents of the list object `host->routes`. -/
def tableOf (s : Http) (host : Nat) : List Nat := s.lists (s.hosts host).routes

/-- The streaming table of a host: the contents of the hash object `host->streams`. -/
def streamsOf (s : Http) (host : Nat) : List MprKey := s.hashes (s.hosts host).streams

/-! ## Streaming policy (`httpGetStreaming`, `httpSetStreaming`) -/

/-- Lines 370-372 of `httpGetStreaming`: a mime type holding a `;` is replaced by its first
token, which may be NULL. -/
def stripParams (mime : String) : Option String :=
  if schr mime ';' then stok mime ';' else some mime

/-- The function `httpGetStreaming(host, mime, uri)`. -/
def httpGetStreaming (s : Http) (host : Nat) (mime : String) (uri : Option String) : Bool :=
  match mprLookupKeyEntry (streamsOf s host) (stripParams mime) with
  | some kp => if kp.data = none ∨ sstarts uri kp.data = true then kp.type else true
  | none => true

/-- The function `httpSetStreaming(host, mime, uri, enable)`: the table object itself is
updated, whoever else holds its address. -/
def httpSetStreaming (s : Http) (host : Nat) (mime : String) (uri : Option String)
    (enable : Bool) : Http :=
  let hp := (s.hosts host).streams
  let table := setKeyType (mprAddKey (s.hashes hp) mime uri) mime enable
  { s with hashes := Function.update s.hashes hp table }

/-! ## Hosts (`httpCreateHost`, `httpCloneHost`) -/

/-- Modelled from the spec: `httpAddHost`, defined outside `host.c`, registers the host in the
host registry. -/
def httpAddHost (s : Http) (host : Nat) : Http :=
  { s with hostList := s.hostList ++ [host] }

/-- The function `httpCreateHost()`, allocation taken to succeed: a new host with a new cache, a
new empty route list, the no-trace flag, a new streaming table with the two rules set at
creation, registered with `httpAddHost`.  Returns the memory and the new host. -/
def httpCreateHost (s : Http) : Http × Nat :=
  let host := s.nextHost
  let h : HttpHost :=
    { zeroHost with responseCache := some s.nextCache, routes := s.nextList,
                    flags := HTTP_HOST_NO_TRACE, streams := s.nextHash }
  let s1 : Http :=
    { s with hosts := Function.update s.hosts host h, nextHost := s.nextHost + 1,
             nextCache := s.nextCache + 1,
             lists := Function.update s.lists s.nextList [], nextList := s.nextList + 1,
             hashes := Function.update s.hashes s.nextHash [], nextHash := s.nextHash + 1 }
  let s2 := httpSetStreaming s1 host "application/x-www-form-urlencoded" none false
  let s3 := httpSetStreaming s2 host "application/json" none false
  (httpAddHost s3 host, host)

/-- The function `httpCloneHost(parent)`, allocation taken to succeed: the new host holds the
parent's cache, route list, streaming table and endpoints by address. -/
def httpCloneHost (s : Http) (parent : Nat) : Http × Nat :=
  let host := s.nextHost
  let p := s.hosts parent
  let h : HttpHost :=
    { zeroHost with parent := some parent, responseCache := p.responseCache, routes := p.routes,
                    flags := p.flags ||| HTTP_HOST_VHOST, streams := p.streams,
                    secureEndpoint := p.secureEndpoint, defaultEndpoint := p.defaultEndpoint }
  let s1 : Http := { s with hosts := Function.update s.hosts host h, nextHost := s.nextHost + 1 }
  (httpAddHost s1 host, host)

/-! ## Route insertion (`httpAddRoute`) -/

/-- The runtime's `mprCloneList`, as used on lines 242-244 of `httpAddRoute`: when the host has a
parent and holds the very list object of its parent, it gets a new list object with the same
items. -/
def cloneRoutesOnWrite (s : Http) (host : Nat) : Http :=
  let h := s.hosts host
  match h.parent with
  | none => s
  | some parent =>
    if h.routes = (s.hosts parent).routes then
      { s with lists := Function.update s.lists s.nextList (s.lists (s.hosts parent).routes),
               nextList := s.nextList + 1,
               hosts := Function.update s.hosts host { h with routes := s.nextList } }
    else s

/-- Lines 246-253 of `httpAddRoute`: a route with a non-empty pattern goes before a last route
with an empty pattern, any other route is appended.  Returns the list and `thisRoute`. -/
def insertRoute (rt : Nat → HttpRoute) (items : List Nat) (route : Nat) : List Nat × Nat :=
  if (rt route).pattern != "" &&
      (match mprGetLastItem items with
       | some lastRoute => (rt lastRoute).pattern == ""
       | none => false) then
    mprInsertItemAtPos items (mprGetListLength items - 1) route
  else
    mprAddItem items route

/-- The assignment `r->nextGroup = thisRoute` on a route object. -/
def setNextGroup (rt : Nat → HttpRoute) (r : Nat) (thisRoute : Nat) : Nat → HttpRoute :=
  Function.update rt r { rt r with nextGroup := some thisRoute }

/-- The loop on lines 258-265 of `httpAddRoute`, `for (i = thisRoute - 2; i >= 0; i--)`: the
argument `n` is `i + 1`, so the loop has ended at `n = 0`. -/
def walkBack (items : List Nat) (prev : Nat) (thisRoute : Nat) :
    Nat → (Nat → HttpRoute) → (Nat → HttpRoute)
  | 0, rt => rt
  | i + 1, rt =>
    match mprGetItem items i with
    | none => rt
    | some item =>
      if smatch (rt item).startSegment (rt prev).startSegment then
        walkBack items prev thisRoute i (setNextGroup rt item thisRoute)
      else rt

/-- Lines 254-267 of `httpAddRoute`: the grouping update after the insertion at `thisRoute`. -/
def groupRoutes (rt : Nat → HttpRoute) (items : List Nat) (thisRoute : Nat) (route : Nat) :
    Nat → HttpRoute :=
  if thisRoute > 0 then
    match mprGetItem items (thisRoute - 1) with
    | none => rt
    | some prev =>
      if ¬ smatch (rt prev).startSegment (rt route).startSegment then
        walkBack items prev thisRoute (thisRoute - 1) (setNextGroup rt prev thisRoute)
      else rt
  else rt

/-- Modelled from the spec: `httpSetRouteHost`, defined outside `host.c`, sets the route's owning
host. -/
def httpSetRouteHost (rt : Nat → HttpRoute) (route host : Nat) : Nat → HttpRoute :=
  Function.update rt route { rt route with host := some host }

/-- The function `httpAddRoute(host, route)`. -/
def httpAddRoute (s : Http) (host route : Nat) : Http :=
  let s1 := cloneRoutesOnWrite s host
  let lp := (s1.hosts host).routes
  let s2 : Http :=
    if mprLookupItem (s1.lists lp) route < 0 then
      let ins := insertRoute s1.routes (s1.lists lp) route
      { s1 with lists := Function.update s1.lists lp ins.1,
                routes := groupRoutes s1.routes ins.1 ins.2 route }
    else s1
  { s2 with routes := httpSetRouteHost s2.routes route host }

/-- A sequence of `httpAddRoute` calls on one host, in order. -/
def addRoutes (s : Http) (host : Nat) (rs : List Nat) : Http :=
  rs.foldl (fun st r => httpAddRoute st host r) s

/-! ## Route lookup (`httpLookupRoute`, `httpLookupRouteByPattern`) -/

/-- The function `httpGetDefaultHost()`: the static `defaultHost`, which may be NULL. -/
def httpGetDefaultHost (s : Http) : Option Nat := s.defaultHost

/-- The loop on lines 285-290 of `httpLookupRoute` over the items of the table: the first route
whose name matches is returned. -/
def lookupByName (rt : Nat → HttpRoute) : List Nat → Option String → Option Nat
  | [], _ => none
  | route :: rest, name =>
    if smatch (rt route).name name then some route else lookupByName rt rest name

/-- The function `httpLookupRoute(host, name)`; a NULL host or a NULL name is `none`, and the
result `none` is the NULL route. -/
def httpLookupRoute (s : Http) (host : Option Nat) (name : Option String) : Option Nat :=
  let name1 : Option String := if name = none ∨ name = some "" then some "default" else name
  let host1 : Option Nat :=
    match host with
    | some h => some h
    | none => httpGetDefaultHost s
  match host1 with
  | none => none
  | some h => lookupByName s.routes (tableOf s h) name1

/-- The loop on lines 306-311 of `httpLookupRouteByPattern` over the items of the table. -/
def lookupByPattern (rt : Nat → HttpRoute) : List Nat → Option String → Option Nat
  | [], _ => none
  | route :: rest, pattern =>
    if smatch (some (rt route).pattern) pattern then some route
    else lookupByPattern rt rest pattern

/-- The function `httpLookupRouteByPattern(host, pattern)`. -/
def httpLookupRouteByPattern (s : Http) (host : Option Nat) (pattern : Option String) :
    Option Nat :=
  let pattern1 : Option String :=
    if smatch pattern (some "/") || smatch pattern (some "^/") || smatch pattern (some "^/$")
    then some "" else pattern
  let host1 : Option Nat :=
    match host with
    | some h => some h
    | none => httpGetDefaultHost s
  match host1 with
  | none => none
  | some h => lookupByPattern s.routes (tableOf s h) pattern1

/-! ## Starting a host (`httpStartHost`) -/

/-- Modelled from the spec: `httpStartRoute`, defined outside `host.c`, is the start hook of
the route, an external collaborator; it writes none of the fields kept in `HttpRoute`. -/
def httpStartRoute (rt : Nat → HttpRoute) (_route : Nat) : Nat → HttpRoute := rt

/-- The body of the second loop of `httpStartHost`, lines 110-112: a route without trace
settings whose parent route exists and has trace settings takes the settings of its parent. -/
def inheritTrace (rt : Nat → HttpRoute) (route : Nat) : Nat → HttpRoute :=
  if (rt route).trace = none then
    match (rt route).parent with
    | none => rt
    | some parent =>
      match (rt parent).trace with
      | none => rt
      | some t => Function.update rt route { rt route with trace := some t }
  else rt

/-- The function `httpStartHost(host)`: both loops run over the items of the host's table in
table order. -/
def httpStartHost (s : Http) (host : Nat) : Http :=
  let rt1 := (tableOf s host).foldl httpStartRoute s.routes
  let rt2 := (tableOf s host).foldl inheritTrace rt1
  { s with routes := rt2 }

/-! ## Action handler (`src/actionHandler.c`) -/

/-- The runtime's `mprLookupKey(hash, key)` on the table of actions: the data pointer stored
under exactly this key, NULL when the key (or the table, or the key pointer) is absent.  A
registered action is a pointer to a function, here the address of the function, which is
never NULL. -/
def mprLookupKey (hash : Option (List (String × Nat))) (key : Option String) : Option Nat :=
  match hash, key with
  | some table, some k => (table.find? (fun kp => kp.1 == k)).map (fun kp => kp.2)
  | _, _ => none

/-- The runtime's `mprAddKey(hash, key, ptr)` on the table of actions: an entry for the key gets
the new pointer, otherwise a new entry is added. -/
def mprAddActionKey : List (String × Nat) → String → Nat → List (String × Nat)
  | [], key, ptr => [(key, ptr)]
  | kp :: rest, key, ptr =>
    if kp.1 == key then (kp.1, ptr) :: rest else kp :: mprAddActionKey rest key ptr

/-- Modelled from the spec: the connection as `startAction` uses it.  `pathInfo` is the path of
the request, `error` the status of the error that `httpError` signalled on the connection, if
any, and `calls` the action functions that were invoked with this connection as their
argument, in order.  The records `HttpConn`, `HttpRx` and `HttpTx` are declared in `http.h`,
which is not among the sources. -/
structure HttpConn where
  pathInfo : Option String
  error : Option Nat
  calls : List Nat
deriving DecidableEq, Repr

/-- Modelled from the spec: the status code `HTTP_CODE_NOT_FOUND` of `http.h`. -/
def HTTP_CODE_NOT_FOUND : Nat := 404

/-- Modelled from the spec: `httpError(conn, status, ...)`, defined outside the sources, signals
the error status on the connection. -/
def httpError (conn : HttpConn) (status : Nat) : HttpConn :=
  { conn with error := some status }

/-- The state of the action handler: `stageData` of the stage that
`httpLookupStage("actionHandler")` finds, or none while that stage does not exist. -/
structure ActionHandler where
  stageData : Option (List (String × Nat))
deriving DecidableEq, Repr

/-- The function `httpOpenActionHandler()`, creation taken to succeed: the stage exists and its
table of actions is empty. -/
def httpOpenActionHandler : ActionHandler := { stageData := some [] }

/-- The function `httpDefineAction(name, action)`: nothing but a log line when the stage is
missing, otherwise the action is stored under the name. -/
def httpDefineAction (st : ActionHandler) (name : String) (action : Nat) : ActionHandler :=
  match st.stageData with
  | none => st
  | some table => { stageData := some (mprAddActionKey table name action) }

/-- The function `startAction(q)` on the connection of the queue: the path of the request is
looked up in the table of actions; without an action the not-found error is signalled,
otherwise the action is called with the connection.  Returns the handler state and the
connection. -/
def startAction (st : ActionHandler) (conn : HttpConn) : ActionHandler × HttpConn :=
  match mprLookupKey st.stageData conn.pathInfo with
  | none => (st, httpError conn HTTP_CODE_NOT_FOUND)
  | some action => (st, { conn with calls := conn.calls ++ [action] })

/-- A sequence of `httpDefineAction` calls, in order. -/
def defineActions (st : ActionHandler) (defs : List (String × Nat)) : ActionHandler :=
  defs.foldl (fun acc d => httpDefineAction acc d.1 d.2) st

/-! ## Insertion as a function of the table -/

/-- What `httpAddRoute` does to the items of the host's table, as a function of the table. -/
def addToTable (rt : Nat → HttpRoute) (items : List Nat) (route : Nat) : List Nat :=
  if mprLookupItem items route < 0 then (insertRoute rt items route).1 else items

/-- What `httpAddRoute` does to the route objects, as a function of the table. -/
def addToRoutes (rt : Nat → HttpRoute) (items : List Nat) (route host : Nat) : Nat → HttpRoute :=
  httpSetRouteHost
    (if mprLookupItem items route < 0 then
      groupRoutes rt (insertRoute rt items route).1 (insertRoute rt items route).2 route
     else rt) route host

/-- One `httpAddRoute` call seen on the pair of the host's table and the route objects. -/
def addStep (host : Nat) (st : List Nat × (Nat → HttpRoute)) (r : Nat) :
    List Nat × (Nat → HttpRoute) :=
  (addToTable st.2 st.1 r, addToRoutes st.2 st.1 r host)

/-- Two route objects agree on everything but `nextGroup` and `host`. -/
def sameFixed (a b : HttpRoute) : Prop :=
  a.name = b.name ∧ a.pattern = b.pattern ∧ a.startSegment = b.startSegment ∧
    a.parent = b.parent ∧ a.trace = b.trace

/-! ## The grouping index -/

/-- The routes that the loop over the positions below `n` reaches: a route at a position `k`
below `n` such that every route from `k` up to `n` has the start segment `seg`. -/
def reached (rt : Nat → HttpRoute) (items : List Nat) (seg : Option String) (n x : Nat) : Prop :=
  ∃ k, k < n ∧ items[k]? = some x ∧
    ∀ m, k ≤ m → m < n → ∀ y, items[m]? = some y → (rt y).startSegment = seg

/-- The routes whose `nextGroup` one insertion at `idx` rewrites: the predecessor differs in its
start segment from the new route, and the route is reached by the backward walk. -/
def regrouped (rt : Nat → HttpRoute) (items : List Nat) (idx r x : Nat) : Prop :=
  0 < idx ∧ ∃ prev, items[idx - 1]? = some prev ∧
    (rt prev).startSegment ≠ (rt r).startSegment ∧
    reached rt items (rt prev).startSegment idx x

/-- The grouping invariant of a table whose routes are ranked by the time of their insertion:
whenever the route at `b` was added after the route at `b - 1` and differs from it in its start
segment, every route of a stretch `[a, b)` of routes with the start segment of the route at
`b - 1` stores `nextGroup = b`. -/
def Grouped (rank : Nat → Nat) (items : List Nat) (rt : Nat → HttpRoute) : Prop :=
  ∀ a b x y z, a < b → items[a]? = some x → items[b - 1]? = some y → items[b]? = some z →
    rank y < rank z → (rt z).startSegment ≠ (rt y).startSegment →
    (∀ m, a ≤ m → m < b → ∀ w, items[m]? = some w →
      (rt w).startSegment = (rt y).startSegment) →
    (rt x).nextGroup = some b

/-- The second invariant, for start segments that do not repeat: a route whose `nextGroup` is
set is followed by a route that was added after it. -/
def SetBeforeNewer (rank : Nat → Nat) (items : List Nat) (rt : Nat → HttpRoute) : Prop :=
  ∀ i x, items[i]? = some x → (rt x).nextGroup ≠ none →
    ∃ z, items[i + 1]? = some z ∧ rank x < rank z

/-- The skip pointers of a table are sound: a route at index `i` that stores `nextGroup = g`
has `i < g`, `g` below the length of the table, and only routes with its own start segment at
the indices from `i` up to `g`. -/
def SkipSound (items : List Nat) (rt : Nat → HttpRoute) : Prop :=
  ∀ (i x g : Nat), items[i]? = some x → (rt x).nextGroup = some g →
    i < g ∧ g < items.length ∧
    ∀ m : Nat, i ≤ m → m < g → ∀ y, items[m]? = some y →
      (rt y).startSegment = (rt x).startSegment

/-! ## Definitions that follow the words of the specification -/

/-- The decision of the streaming policy as the specification words it, on the table of a host:
enabled when the table has no entry for the mime type; the flag of the entry when the entry has
no URI prefix; the flag of the entry when the URI starts with the prefix of the entry; enabled
when it does not. -/
def streamingDecision (table : List MprKey) (mime : String) (uri : Option String) : Bool :=
  match table.find? (fun kp => kp.key = mime) with
  | none => true
  | some entry =>
    match entry.data with
    | none => entry.type
    | some pre =>
      match uri with
      | none => true
      | some u => if pre.data <+: u.data then entry.type else true

/-- The name that `httpLookupRoute` searches for, as the specification words it: an empty or
unset name stands for `default`. -/
def normalizedName (name : Option String) : String :=
  match name with
  | none => "default"
  | some n => if n = "" then "default" else n

/-- The route `r` is the first item of the table, in table order, that satisfies `p`. -/
def isFirst (p : Nat → Prop) (items : List Nat) (r : Nat) : Prop :=
  ∃ i : Nat, items[i]? = some r ∧ p r ∧ ∀ j : Nat, j < i → ∀ q, items[j]? = some q → ¬ p q

/-- The action most recently defined under a path in a sequence of definitions, as the
specification words it: the function of the last definition whose name is exactly the path. -/
def lastDefined (defs : List (String × Nat)) (path : String) : Option Nat :=
  ((defs.filter (fun d => d.1 = path)).getLast?).map (fun d => d.2)

/-! ## A concrete memory for the examples -/

/-- A fresh route object with the given pattern and start segment; everything else unset. -/
def mkRoute (pattern : String) (seg : Option String) : HttpRoute :=
  { name := none, pattern := pattern, startSegment := seg, nextGroup := none, parent := none,
    trace := none, host := none }

/-- A memory with no host, list or table allocated, whose route objects are given. -/
def emptyHttp (rt : Nat → HttpRoute) : Http :=
  { routes := rt, lists := fun _ => [], nextList := 0, hashes := fun _ => [], nextHash := 0,
    hosts := fun _ => zeroHost, nextHost := 0, nextCache := 0, hostList := [],
    defaultHost := none }

/-- The route objects of the examples: routes 0 and 1 share the start segment `a`, route 2 has
the start segment `c`, routes 3 and 4 are two catch-all routes with an empty pattern, and every
other address holds a route with the start segment `z`. -/
def exampleRoutes : Nat → HttpRoute
  | 0 => mkRoute "^/a" (some "a")
  | 1 => mkRoute "^/b" (some "a")
  | 2 => mkRoute "^/c" (some "c")
  | 3 => mkRoute "" none
  | 4 => mkRoute "" (some "")
  | _ => mkRoute "^/z" (some "z")

/-- The memory after `httpCreateHost()` on the empty memory: host 0, with an empty route table. -/
def exampleHost : Http := (httpCreateHost (emptyHttp exampleRoutes)).1

/-- Host 0 after route 0 and the catch-all route 3 were added: its table is `[0, 3]`. -/
def exampleParent : Http := addRoutes exampleHost 0 [0, 3]

/-- The memory after `httpCloneHost` on host 0 of `exampleParent`: host 1 is the clone. -/
def exampleClone : Http := (httpCloneHost exampleParent 0).1

/-- A host for the trace example: route 0 has trace settings and the start segment `a`,
route 1 is its child, without trace settings and with the same start segment, route 2 has
another start segment. -/
def traceRoutes : Nat → HttpRoute
  | 0 => { mkRoute "^/a" (some "a") with trace := some 7 }
  | 1 => { mkRoute "^/a/b" (some "a") with parent := some 0 }
  | _ => mkRoute "^/c" (some "c")

/-- The memory of the trace example: host 0 with the table `[0, 1, 2]`. -/
def traceHost : Http := addRoutes (httpCreateHost (emptyHttp traceRoutes)).1 0 [0, 1, 2]

/-! # Theorems -/

/-! ## Basic facts about the runtime lists -/

theorem mprLookupItem_nonneg_of_mem {lp : List Nat} {item : Nat} (h : item ∈ lp) :
    0 ≤ mprLookupItem lp item := by
  induction lp with
  | nil => simp at h
  | cons x xs ih =>
    simp only [mprLookupItem]
    by_cases hx : x = item
    · simp [hx]
    · have hm : item ∈ xs := by
        rcases List.mem_cons.mp h with h1 | h1
        · exact absurd h1.symm hx
        · exact h1
      have := ih hm
      simp only [hx, if_false]
      split <;> omega

theorem mprLookupItem_neg_of_not_mem {lp : List Nat} {item : Nat} (h : item ∉ lp) :
    mprLookupItem lp item < 0 := by
  induction lp with
  | nil => simp [mprLookupItem, MPR_ERR_CANT_FIND]
  | cons x xs ih =>
    simp only [mprLookupItem]
    have hx : x ≠ item := fun e => h (by simp [e])
    have hm : item ∉ xs := fun e => h (List.mem_cons_of_mem _ e)
    have := ih hm
    simp [hx, this]

theorem mprLookupItem_neg_iff (lp : List Nat) (item : Nat) :
    mprLookupItem lp item < 0 ↔ item ∉ lp := by
  constructor
  · intro h hm
    have := mprLookupItem_nonneg_of_mem hm
    omega
  · exact mprLookupItem_neg_of_not_mem

theorem cloneRoutesOnWrite_routes (s : Http) (host : Nat) :
    (cloneRoutesOnWrite s host).routes = s.routes := by
  unfold cloneRoutesOnWrite
  dsimp only
  split
  · rfl
  · split <;> rfl

theorem cloneRoutesOnWrite_tableOf (s : Http) (host : Nat) :
    tableOf (cloneRoutesOnWrite s host) host = tableOf s host := by
  unfold cloneRoutesOnWrite tableOf
  dsimp only
  split
  · rfl
  · split
    · rename_i h
      dsimp only
      rw [Function.update_same]
      dsimp only
      rw [Function.update_same, h]
    · rfl

theorem httpAddRoute_tableOf (s : Http) (host route : Nat) :
    tableOf (httpAddRoute s host route) host = addToTable s.routes (tableOf s host) route := by
  have h1 := cloneRoutesOnWrite_tableOf s host
  have h2 := cloneRoutesOnWrite_routes s host
  unfold tableOf at h1 ⊢
  unfold httpAddRoute addToTable
  dsimp only
  rw [h1, h2]
  split
  · simp [h1]
  · simp [h1]

theorem httpAddRoute_routes (s : Http) (host route : Nat) :
    (httpAddRoute s host route).routes = addToRoutes s.routes (tableOf s host) route host := by
  have h1 := cloneRoutesOnWrite_tableOf s host
  have h2 := cloneRoutesOnWrite_routes s host
  unfold tableOf at h1 ⊢
  unfold httpAddRoute addToRoutes
  dsimp only
  rw [h1, h2]
  split
  · simp [h1]
  · simp [h2]


/-! ## Fields that insertion never writes -/

theorem sameFixed_refl (a : HttpRoute) : sameFixed a a := ⟨rfl, rfl, rfl, rfl, rfl⟩

theorem sameFixed_trans {a b c : HttpRoute} (h1 : sameFixed a b) (h2 : sameFixed b c) :
    sameFixed a c :=
  ⟨h1.1.trans h2.1, h1.2.1.trans h2.2.1, h1.2.2.1.trans h2.2.2.1, h1.2.2.2.1.trans h2.2.2.2.1,
    h1.2.2.2.2.trans h2.2.2.2.2⟩

theorem setNextGroup_sameFixed (rt : Nat → HttpRoute) (r idx i : Nat) :
    sameFixed (setNextGroup rt r idx i) (rt i) := by
  unfold setNextGroup
  by_cases h : i = r
  · subst h
    rw [Function.update_same]
    exact ⟨rfl, rfl, rfl, rfl, rfl⟩
  · rw [Function.update_noteq h]
    exact sameFixed_refl _

theorem walkBack_sameFixed (items : List Nat) (prev idx : Nat) (n : Nat) :
    ∀ (rt : Nat → HttpRoute) (i : Nat), sameFixed (walkBack items prev idx n rt i) (rt i) := by
  induction n with
  | zero => intro rt i; exact sameFixed_refl _
  | succ k ih =>
    intro rt i
    simp only [walkBack]
    cases mprGetItem items k with
    | none => exact sameFixed_refl _
    | some item =>
      dsimp only
      split
      · exact sameFixed_trans (ih _ i) (setNextGroup_sameFixed rt _ idx i)
      · exact sameFixed_refl _

theorem groupRoutes_sameFixed (rt : Nat → HttpRoute) (items : List Nat) (idx route i : Nat) :
    sameFixed (groupRoutes rt items idx route i) (rt i) := by
  unfold groupRoutes
  split
  · cases mprGetItem items (idx - 1) with
    | none => exact sameFixed_refl _
    | some prev =>
      dsimp only
      split
      · exact sameFixed_trans (walkBack_sameFixed _ _ _ _ _ i) (setNextGroup_sameFixed rt _ idx i)
      · exact sameFixed_refl _
  · exact sameFixed_refl _

theorem httpSetRouteHost_sameFixed (rt : Nat → HttpRoute) (route host i : Nat) :
    sameFixed (httpSetRouteHost rt route host i) (rt i) := by
  unfold httpSetRouteHost
  by_cases h : i = route
  · subst h
    rw [Function.update_same]
    exact ⟨rfl, rfl, rfl, rfl, rfl⟩
  · rw [Function.update_noteq h]
    exact sameFixed_refl _

theorem addToRoutes_sameFixed (rt : Nat → HttpRoute) (items : List Nat) (route host i : Nat) :
    sameFixed (addToRoutes rt items route host i) (rt i) := by
  unfold addToRoutes
  refine sameFixed_trans (httpSetRouteHost_sameFixed _ _ _ i) ?_
  split
  · exact groupRoutes_sameFixed _ _ _ _ i
  · exact sameFixed_refl _

theorem httpAddRoute_sameFixed (s : Http) (host route i : Nat) :
    sameFixed ((httpAddRoute s host route).routes i) (s.routes i) := by
  rw [httpAddRoute_routes]
  exact addToRoutes_sameFixed _ _ _ _ i

theorem addRoutes_sameFixed (host : Nat) (rs : List Nat) :
    ∀ (s : Http) (i : Nat), sameFixed ((addRoutes s host rs).routes i) (s.routes i) := by
  induction rs with
  | nil => intro s i; exact sameFixed_refl _
  | cons r rs ih =>
    intro s i
    exact sameFixed_trans (ih (httpAddRoute s host r) i) (httpAddRoute_sameFixed s host r i)

theorem addRoutes_pattern (s : Http) (host : Nat) (rs : List Nat) (i : Nat) :
    ((addRoutes s host rs).routes i).pattern = (s.routes i).pattern :=
  (addRoutes_sameFixed host rs s i).2.1

theorem addRoutes_startSegment (s : Http) (host : Nat) (rs : List Nat) (i : Nat) :
    ((addRoutes s host rs).routes i).startSegment = (s.routes i).startSegment :=
  (addRoutes_sameFixed host rs s i).2.2.1

/-! ## The position of an inserted route -/

theorem insertRoute_congr {rt rt2 : Nat → HttpRoute}
    (h : ∀ i, (rt2 i).pattern = (rt i).pattern) (items : List Nat) (route : Nat) :
    insertRoute rt2 items route = insertRoute rt items route := by
  unfold insertRoute
  rw [h route]
  cases mprGetLastItem items with
  | none => rfl
  | some d => simp only [h d]

theorem addToTable_congr {rt rt2 : Nat → HttpRoute}
    (h : ∀ i, (rt2 i).pattern = (rt i).pattern) (items : List Nat) (route : Nat) :
    addToTable rt2 items route = addToTable rt items route := by
  unfold addToTable
  rw [insertRoute_congr h]

theorem insertRoute_before (rt : Nat → HttpRoute) (front : List Nat) (d route : Nat)
    (hr : (rt route).pattern ≠ "") (hd : (rt d).pattern = "") :
    insertRoute rt (front ++ [d]) route = (front ++ [route, d], front.length) := by
  unfold insertRoute mprGetLastItem mprInsertItemAtPos mprGetListLength
  simp [hr, hd]

theorem insertRoute_append_of_empty (rt : Nat → HttpRoute) (items : List Nat) (route : Nat)
    (hr : (rt route).pattern = "") :
    insertRoute rt items route = (items ++ [route], items.length) := by
  unfold insertRoute mprAddItem
  simp [hr]

theorem insertRoute_append_of_last (rt : Nat → HttpRoute) (items : List Nat) (route : Nat)
    (hl : ∀ d, items.getLast? = some d → (rt d).pattern ≠ "") :
    insertRoute rt items route = (items ++ [route], items.length) := by
  unfold insertRoute mprAddItem mprGetLastItem
  cases hlast : items.getLast? with
  | none => simp
  | some d => simp [hl d hlast]

theorem addToTable_of_mem (rt : Nat → HttpRoute) (items : List Nat) (route : Nat)
    (h : route ∈ items) : addToTable rt items route = items := by
  unfold addToTable
  have := mprLookupItem_nonneg_of_mem h
  rw [if_neg (by omega)]

theorem addToTable_of_not_mem (rt : Nat → HttpRoute) (items : List Nat) (route : Nat)
    (h : route ∉ items) : addToTable rt items route = (insertRoute rt items route).1 := by
  unfold addToTable
  rw [if_pos (mprLookupItem_neg_of_not_mem h)]

theorem addRoutes_tableOf (host : Nat) (rs : List Nat) :
    ∀ s : Http, tableOf (addRoutes s host rs) host =
      rs.foldl (fun items r => addToTable s.routes items r) (tableOf s host) := by
  induction rs with
  | nil => intro s; rfl
  | cons r rs ih =>
    intro s
    simp only [addRoutes, List.foldl_cons] at ih ⊢
    rw [ih (httpAddRoute s host r), httpAddRoute_tableOf]
    congr 1
    funext items x
    exact addToTable_congr (fun i => (httpAddRoute_sameFixed s host r i).2.1) items x

/-- Claim C1: when the last entry `d` of the host's table has an empty pattern and the route
`r` has a non-empty pattern and is not in the table, then after `httpAddRoute(host, r)` the
table is the old table with `r` put in front of its last entry: it is one longer, `r` is at
the index just before the last entry, and the last entry is still `d`, whose pattern is still
empty. -/
theorem httpAddRoute_before_default (s : Http) (host r d : Nat)
    (hlast : (tableOf s host).getLast? = some d) (hd : (s.routes d).pattern = "")
    (hr : (s.routes r).pattern ≠ "") (hnew : r ∉ tableOf s host) :
    tableOf (httpAddRoute s host r) host = (tableOf s host).dropLast ++ [r, d] ∧
    (tableOf (httpAddRoute s host r) host).length = (tableOf s host).length + 1 ∧
    (tableOf (httpAddRoute s host r) host)[(tableOf (httpAddRoute s host r) host).length - 2]?
      = some r ∧
    (tableOf (httpAddRoute s host r) host).getLast? = some d ∧
    ((httpAddRoute s host r).routes d).pattern = "" := by
  obtain ⟨front, hfront⟩ := List.getLast?_eq_some_iff.mp hlast
  have htab : tableOf (httpAddRoute s host r) host = front ++ [r, d] := by
    rw [httpAddRoute_tableOf, addToTable_of_not_mem _ _ _ hnew, hfront,
      insertRoute_before _ _ _ _ hr hd]
  have hpat : ((httpAddRoute s host r).routes d).pattern = "" := by
    rw [(httpAddRoute_sameFixed s host r d).2.1]; exact hd
  rw [htab, hfront]
  refine ⟨by simp, by simp, ?_, ?_, hpat⟩
  · have hlen : (front ++ [r, d]).length - 2 = front.length := by simp
    rw [hlen, List.getElem?_append_right (le_refl _)]
    simp
  · have : front ++ [r, d] = (front ++ [r]) ++ [d] := by simp
    rw [this, List.getLast?_concat]

/-- Claim C1 at a concrete table: the table `[0, 3]` with the catch-all route 3 last, and the
new route 1. -/
theorem httpAddRoute_before_default_witness :
    tableOf (httpAddRoute (addRoutes exampleHost 0 [0, 3]) 0 1) 0 =
        (tableOf (addRoutes exampleHost 0 [0, 3]) 0).dropLast ++ [1, 3] ∧
    (tableOf (httpAddRoute (addRoutes exampleHost 0 [0, 3]) 0 1) 0).length =
        (tableOf (addRoutes exampleHost 0 [0, 3]) 0).length + 1 ∧
    (tableOf (httpAddRoute (addRoutes exampleHost 0 [0, 3]) 0 1) 0)[
        (tableOf (httpAddRoute (addRoutes exampleHost 0 [0, 3]) 0 1) 0).length - 2]? = some 1 ∧
    (tableOf (httpAddRoute (addRoutes exampleHost 0 [0, 3]) 0 1) 0).getLast? = some 3 ∧
    ((httpAddRoute (addRoutes exampleHost 0 [0, 3]) 0 1).routes 3).pattern = "" :=
  httpAddRoute_before_default (addRoutes exampleHost 0 [0, 3]) 0 1 3
    (by decide) (by decide) (by decide) (by decide)


/-! ## The default route stays last -/

theorem addToTable_dropLast (rt : Nat → HttpRoute) (rs items : List Nat) (r : Nat)
    (hone : ∀ a ∈ rs, ∀ b ∈ rs, (rt a).pattern = "" → (rt b).pattern = "" → a = b)
    (hr : r ∈ rs) (hsub : ∀ y ∈ items, y ∈ rs)
    (hinv : ∀ y ∈ items.dropLast, (rt y).pattern ≠ "") :
    (∀ y ∈ addToTable rt items r, y ∈ rs) ∧
    (∀ y ∈ (addToTable rt items r).dropLast, (rt y).pattern ≠ "") := by
  by_cases hmem : r ∈ items
  · rw [addToTable_of_mem _ _ _ hmem]
    exact ⟨hsub, hinv⟩
  · rw [addToTable_of_not_mem _ _ _ hmem]
    by_cases hcase : (rt r).pattern ≠ "" ∧ ∃ d, items.getLast? = some d ∧ (rt d).pattern = ""
    · obtain ⟨hrp, d, hlast, hd⟩ := hcase
      obtain ⟨front, hfront⟩ := List.getLast?_eq_some_iff.mp hlast
      subst hfront
      rw [insertRoute_before _ _ _ _ hrp hd]
      constructor
      · intro y hy
        simp only [List.mem_append, List.mem_cons, List.mem_singleton, List.not_mem_nil,
          or_false] at hy
        rcases hy with hy | hy | hy
        · exact hsub y (by simp [hy])
        · exact hy ▸ hr
        · exact hsub y (by simp [hy])
      · intro y hy
        have hdl : (front ++ [r, d]).dropLast = front ++ [r] := by
          rw [show front ++ [r, d] = (front ++ [r]) ++ [d] by simp, List.dropLast_concat]
        rw [hdl] at hy
        rcases List.mem_append.mp hy with hy | hy
        · exact hinv y (by simpa using hy)
        · rw [List.mem_singleton] at hy
          exact hy ▸ hrp
    · have happ : insertRoute rt items r = (items ++ [r], items.length) := by
        by_cases hrp : (rt r).pattern = ""
        · exact insertRoute_append_of_empty _ _ _ hrp
        · exact insertRoute_append_of_last _ _ _ (fun d hl hd => hcase ⟨hrp, d, hl, hd⟩)
      rw [happ]
      constructor
      · intro y hy
        rcases List.mem_append.mp hy with hy | hy
        · exact hsub y hy
        · rw [List.mem_singleton] at hy
          exact hy ▸ hr
      · intro y hy
        rw [List.dropLast_concat] at hy
        intro hyp
        cases hl : items.getLast? with
        | none =>
          rw [List.getLast?_eq_none_iff] at hl
          rw [hl] at hy
          simp at hy
        | some d =>
          obtain ⟨front, hfront⟩ := List.getLast?_eq_some_iff.mp hl
          rw [hfront] at hy hinv
          rw [List.dropLast_concat] at hinv
          rcases List.mem_append.mp hy with hy | hy
          · exact hinv y hy hyp
          · rw [List.mem_singleton] at hy
            subst hy
            by_cases hrp : (rt r).pattern = ""
            · have hyr : y = r := hone y (hsub y (by simp [hfront])) r hr hyp hrp
              exact hmem (hyr ▸ (by simp [hfront]))
            · exact hcase ⟨hrp, y, hl, hyp⟩

theorem foldl_addToTable_dropLast (rt : Nat → HttpRoute) (rs : List Nat)
    (hone : ∀ a ∈ rs, ∀ b ∈ rs, (rt a).pattern = "" → (rt b).pattern = "" → a = b) :
    ∀ (l items : List Nat), (∀ r ∈ l, r ∈ rs) → (∀ y ∈ items, y ∈ rs) →
      (∀ y ∈ items.dropLast, (rt y).pattern ≠ "") →
      (∀ y ∈ (l.foldl (fun acc r => addToTable rt acc r) items).dropLast,
        (rt y).pattern ≠ "") := by
  intro l
  induction l with
  | nil => intro items _ _ hinv; exact hinv
  | cons r l ih =>
    intro items hl hsub hinv
    have hstep := addToTable_dropLast rt rs items r hone (hl r (by simp)) hsub hinv
    exact ih _ (fun x hx => hl x (List.mem_cons_of_mem _ hx)) hstep.1 hstep.2

/-- Claim C2, amended: in the table reached from an empty table by a sequence of `httpAddRoute`
calls (routes may repeat) among whose routes at most one has an empty pattern, at most one
route has an empty pattern, and a route with an empty pattern is the last element. -/
theorem addRoutes_default_last (s : Http) (host : Nat) (rs : List Nat)
    (hempty : tableOf s host = [])
    (hone : ∀ a ∈ rs, ∀ b ∈ rs,
      (s.routes a).pattern = "" → (s.routes b).pattern = "" → a = b) :
    ((tableOf (addRoutes s host rs) host).filter
        (fun x => ((addRoutes s host rs).routes x).pattern == "")).length ≤ 1 ∧
    ∀ x ∈ tableOf (addRoutes s host rs) host,
      ((addRoutes s host rs).routes x).pattern = "" →
        (tableOf (addRoutes s host rs) host).getLast? = some x := by
  have hinv := foldl_addToTable_dropLast s.routes rs hone rs [] (fun r h => h)
    (by simp) (by simp)
  rw [← hempty, ← addRoutes_tableOf] at hinv
  simp only [addRoutes_pattern]
  generalize tableOf (addRoutes s host rs) host = items at hinv ⊢
  cases hl : items.getLast? with
  | none =>
    rw [List.getLast?_eq_none_iff] at hl
    subst hl
    simp
  | some d =>
    obtain ⟨front, hfront⟩ := List.getLast?_eq_some_iff.mp hl
    subst hfront
    rw [List.dropLast_concat] at hinv
    constructor
    · rw [List.filter_append]
      have h0 : front.filter (fun x => (s.routes x).pattern == "") = [] := by
        rw [List.filter_eq_nil_iff]
        intro a ha
        simpa using hinv a ha
      rw [h0]
      simp only [List.nil_append]
      exact (List.length_filter_le _ _).trans (by simp)
    · intro x hx hxp
      rcases List.mem_append.mp hx with hx | hx
      · exact absurd hxp (hinv x hx)
      · rw [List.mem_singleton] at hx
        rw [hx]

/-- Claim C2, amended, at a concrete sequence: the catch-all route 3 is added twice, between
routes with a pattern. -/
theorem addRoutes_default_last_witness :
    ((tableOf (addRoutes exampleHost 0 [0, 3, 1, 3, 2]) 0).filter
        (fun x => ((addRoutes exampleHost 0 [0, 3, 1, 3, 2]).routes x).pattern == "")).length ≤ 1 ∧
    ∀ x ∈ tableOf (addRoutes exampleHost 0 [0, 3, 1, 3, 2]) 0,
      ((addRoutes exampleHost 0 [0, 3, 1, 3, 2]).routes x).pattern = "" →
        (tableOf (addRoutes exampleHost 0 [0, 3, 1, 3, 2]) 0).getLast? = some x :=
  addRoutes_default_last exampleHost 0 [0, 3, 1, 3, 2] (by decide) (by decide)

/-- Claim C2 fails as stated: two distinct routes with an empty pattern, 3 and 4, are both
appended, and route 0 added afterwards goes between them; the table `[3, 0, 4]` holds two
routes with an empty pattern and the first of them is not last. -/
theorem addRoutes_two_defaults :
    tableOf exampleHost 0 = [] ∧
    tableOf (addRoutes exampleHost 0 [3, 4, 0]) 0 = [3, 0, 4] ∧
    ((addRoutes exampleHost 0 [3, 4, 0]).routes 3).pattern = "" ∧
    ((addRoutes exampleHost 0 [3, 4, 0]).routes 4).pattern = "" ∧
    ((tableOf (addRoutes exampleHost 0 [3, 4, 0]) 0).filter
        (fun x => ((addRoutes exampleHost 0 [3, 4, 0]).routes x).pattern == "")).length = 2 ∧
    (tableOf (addRoutes exampleHost 0 [3, 4, 0]) 0).getLast? ≠ some 3 := by
  decide


/-! ## The order of the table -/

theorem foldl_addToTable_order (rt : Nat → HttpRoute) :
    ∀ (rs front tail : List Nat),
      (∀ y ∈ front, (rt y).pattern ≠ "") →
      (tail = [] ∨ ∃ d, tail = [d] ∧ (rt d).pattern = "") →
      rs.Nodup → (∀ r ∈ rs, r ∉ front ++ tail) →
      (∀ a ∈ tail ++ rs, ∀ b ∈ tail ++ rs,
        (rt a).pattern = "" → (rt b).pattern = "" → a = b) →
      rs.foldl (fun acc r => addToTable rt acc r) (front ++ tail) =
        (front ++ rs.filter (fun x => (rt x).pattern != "")) ++
          (tail ++ rs.filter (fun x => (rt x).pattern == "")) := by
  intro rs
  induction rs with
  | nil => intro front tail _ _ _ _ _; simp
  | cons r rs ih =>
    intro front tail hfront htail hnd hnew hone
    have hrnew : r ∉ front ++ tail := hnew r (by simp)
    have hnd2 : rs.Nodup := (List.nodup_cons.mp hnd).2
    have hrrs : r ∉ rs := (List.nodup_cons.mp hnd).1
    rw [List.foldl_cons, addToTable_of_not_mem _ _ _ hrnew]
    by_cases hrp : (rt r).pattern = ""
    · -- the one route with an empty pattern: nothing with an empty pattern is in the table
      have htnil : tail = [] := by
        rcases htail with h | ⟨d, hd, hdp⟩
        · exact h
        · exfalso
          have hdr : d = r := hone d (by simp [hd]) r (by simp) hdp hrp
          exact hrnew (by simp [hd, hdr])
      subst htnil
      rw [insertRoute_append_of_empty _ _ _ hrp]
      simp only [List.append_nil]
      have := ih front [r] hfront (Or.inr ⟨r, rfl, hrp⟩) hnd2
        (fun x hx hmem => by
          rcases List.mem_append.mp hmem with h | h
          · exact hnew x (List.mem_cons_of_mem _ hx) (by simpa using h)
          · rw [List.mem_singleton] at h
            exact hrrs (h ▸ hx))
        (fun a ha b hb => hone a (by simpa using ha) b (by simpa using hb))
      rw [this]
      simp [hrp]
    · rcases htail with h | ⟨d, hd, hdp⟩
      · subst h
        have hlast : ∀ d, (front ++ []).getLast? = some d → (rt d).pattern ≠ "" := by
          intro d hl
          rw [List.append_nil] at hl
          exact hfront d (List.mem_of_getLast?_eq_some hl)
        rw [insertRoute_append_of_last _ _ _ hlast]
        have := ih (front ++ [r]) [] (fun y hy => by
            rcases List.mem_append.mp hy with h | h
            · exact hfront y h
            · rw [List.mem_singleton] at h
              exact h ▸ hrp) (Or.inl rfl) hnd2
          (fun x hx hmem => by
            simp only [List.append_nil, List.mem_append, List.mem_singleton] at hmem
            rcases hmem with h | h
            · exact hnew x (List.mem_cons_of_mem _ hx) (by simpa using h)
            · exact hrrs (h ▸ hx))
          (fun a ha b hb => hone a (by simp at ha; simp [ha]) b (by simp at hb; simp [hb]))
        simp only [List.append_nil] at this ⊢
        rw [this]
        simp [hrp]
      · subst hd
        rw [insertRoute_before _ _ _ _ hrp hdp]
        have := ih (front ++ [r]) [d] (fun y hy => by
            rcases List.mem_append.mp hy with h | h
            · exact hfront y h
            · rw [List.mem_singleton] at h
              exact h ▸ hrp) (Or.inr ⟨d, rfl, hdp⟩) hnd2
          (fun x hx hmem => by
            simp only [List.mem_append, List.mem_singleton] at hmem
            rcases hmem with (h | h) | h
            · exact hnew x (List.mem_cons_of_mem _ hx) (by simp [h])
            · exact hrrs (h ▸ hx)
            · exact hnew x (List.mem_cons_of_mem _ hx) (by simp [h]))
          (fun a ha b hb => hone a (by
              simp only [List.mem_append, List.mem_singleton, List.mem_cons] at ha ⊢
              tauto) b (by
              simp only [List.mem_append, List.mem_singleton, List.mem_cons] at hb ⊢
              tauto))
        have hshape : front ++ [r, d] = (front ++ [r]) ++ [d] := by simp
        rw [hshape, this]
        simp [hrp]

/-- Claim C3: for pairwise distinct routes of which at most one has an empty pattern, added in
order to a host whose table is empty, the resulting table is the routes with a non-empty
pattern in the order of their addition, followed by the route with an empty pattern if there
is one. -/
theorem addRoutes_order (s : Http) (host : Nat) (rs : List Nat)
    (hempty : tableOf s host = []) (hdistinct : rs.Nodup)
    (hone : ∀ a ∈ rs, ∀ b ∈ rs,
      (s.routes a).pattern = "" → (s.routes b).pattern = "" → a = b) :
    tableOf (addRoutes s host rs) host =
      rs.filter (fun x => (s.routes x).pattern != "") ++
        rs.filter (fun x => (s.routes x).pattern == "") := by
  rw [addRoutes_tableOf, hempty]
  have := foldl_addToTable_order s.routes rs [] [] (by simp) (Or.inl rfl) hdistinct (by simp)
    (by simpa using hone)
  simpa using this

/-- Claim C3 at a concrete sequence: the catch-all route 3 is added second and ends up
last. -/
theorem addRoutes_order_witness :
    tableOf (addRoutes exampleHost 0 [0, 3, 1, 2]) 0 =
      [0, 3, 1, 2].filter (fun x => (exampleHost.routes x).pattern != "") ++
        [0, 3, 1, 2].filter (fun x => (exampleHost.routes x).pattern == "") :=
  addRoutes_order exampleHost 0 [0, 3, 1, 2] (by decide) (by decide) (by decide)


/-! ## Copy on write of the route table -/

theorem cloneRoutesOnWrite_hosts_other (s : Http) (host h : Nat) (hne : h ≠ host) :
    (cloneRoutesOnWrite s host).hosts h = s.hosts h := by
  unfold cloneRoutesOnWrite
  dsimp only
  split
  · rfl
  · split
    · dsimp only
      rw [Function.update_noteq hne]
    · rfl

theorem cloneRoutesOnWrite_lists_old (s : Http) (host a : Nat) (ha : a < s.nextList) :
    (cloneRoutesOnWrite s host).lists a = s.lists a := by
  unfold cloneRoutesOnWrite
  dsimp only
  split
  · rfl
  · split
    · dsimp only
      rw [Function.update_noteq (by omega)]
    · rfl

theorem cloneRoutesOnWrite_shared (s : Http) (host parent : Nat)
    (hpar : (s.hosts host).parent = some parent)
    (hshare : (s.hosts host).routes = (s.hosts parent).routes) :
    ((cloneRoutesOnWrite s host).hosts host).routes = s.nextList := by
  unfold cloneRoutesOnWrite
  dsimp only
  rw [hpar]
  dsimp only
  rw [if_pos hshare]
  dsimp only
  rw [Function.update_same]

theorem httpAddRoute_hosts (s : Http) (host route : Nat) :
    (httpAddRoute s host route).hosts = (cloneRoutesOnWrite s host).hosts := by
  unfold httpAddRoute
  dsimp only
  split <;> rfl

theorem httpAddRoute_lists_other (s : Http) (host route a : Nat)
    (ha : a ≠ ((cloneRoutesOnWrite s host).hosts host).routes) :
    (httpAddRoute s host route).lists a = (cloneRoutesOnWrite s host).lists a := by
  unfold httpAddRoute
  dsimp only
  split
  · dsimp only
    rw [Function.update_noteq ha]
  · rfl

theorem mem_addToTable (rt : Nat → HttpRoute) (items : List Nat) (route : Nat) :
    route ∈ addToTable rt items route ∧ ∀ x ∈ items, x ∈ addToTable rt items route := by
  by_cases hmem : route ∈ items
  · rw [addToTable_of_mem _ _ _ hmem]
    exact ⟨hmem, fun x hx => hx⟩
  · rw [addToTable_of_not_mem _ _ _ hmem]
    unfold insertRoute mprInsertItemAtPos mprAddItem
    split
    · dsimp only
      refine ⟨by simp, fun x hx => ?_⟩
      have hx2 : x ∈ items.take (mprGetListLength items - 1) ++
          items.drop (mprGetListLength items - 1) := by
        rw [List.take_append_drop]; exact hx
      simp only [List.mem_append, List.mem_cons] at hx2 ⊢
      tauto
    · dsimp only
      exact ⟨by simp, fun x hx => by simp [hx]⟩

/-- Claim C4: let `clone` be a host whose parent is the other host `parent` and which still
holds the very list object of its parent, an allocated list.  After `httpAddRoute(clone, r)`
the parent's table has the same routes in the same order and the same length, the parent still
holds the same list object, the clone holds a list object that no other host with an allocated
list holds, and the clone's table is the parent's table with `r` added to it: it contains every
route of the parent's table and `r`. -/
theorem httpAddRoute_clone_isolation (s : Http) (parent clone r : Nat)
    (hpar : (s.hosts clone).parent = some parent) (hne : clone ≠ parent)
    (hshare : (s.hosts clone).routes = (s.hosts parent).routes)
    (halloc : (s.hosts parent).routes < s.nextList) :
    tableOf (httpAddRoute s clone r) parent = tableOf s parent ∧
    (tableOf (httpAddRoute s clone r) parent).length = (tableOf s parent).length ∧
    ((httpAddRoute s clone r).hosts parent).routes = (s.hosts parent).routes ∧
    (∀ h, h ≠ clone → (s.hosts h).routes < s.nextList →
      ((httpAddRoute s clone r).hosts h).routes ≠
        ((httpAddRoute s clone r).hosts clone).routes) ∧
    tableOf (httpAddRoute s clone r) clone = addToTable s.routes (tableOf s parent) r ∧
    (∀ x ∈ tableOf s parent, x ∈ tableOf (httpAddRoute s clone r) clone) ∧
    r ∈ tableOf (httpAddRoute s clone r) clone := by
  have hnew := cloneRoutesOnWrite_shared s clone parent hpar hshare
  have hother : ∀ h, h ≠ clone →
      ((httpAddRoute s clone r).hosts h).routes = (s.hosts h).routes := by
    intro h hh
    rw [httpAddRoute_hosts, cloneRoutesOnWrite_hosts_other s clone h hh]
  have hself : ((httpAddRoute s clone r).hosts clone).routes = s.nextList := by
    rw [httpAddRoute_hosts, hnew]
  have htab : tableOf (httpAddRoute s clone r) parent = tableOf s parent := by
    unfold tableOf
    rw [hother parent (Ne.symm hne),
      httpAddRoute_lists_other s clone r _ (by rw [hnew]; omega),
      cloneRoutesOnWrite_lists_old s clone _ halloc]
  have hclone := mem_addToTable s.routes (tableOf s clone) r
  have hsame : tableOf s clone = tableOf s parent := by
    unfold tableOf; rw [hshare]
  refine ⟨htab, by rw [htab], hother parent (Ne.symm hne), ?_, ?_, ?_, ?_⟩
  · intro h hh hlt
    rw [hother h hh, hself]
    omega
  · rw [httpAddRoute_tableOf, hsame]
  · intro x hx
    rw [httpAddRoute_tableOf]
    exact hclone.2 x (hsame ▸ hx)
  · rw [httpAddRoute_tableOf]
    exact hclone.1

/-- The host that `httpCloneHost` returns differs from its parent, names it as its parent and
holds the list object and the streaming table of its parent; nothing else in memory changes. -/
theorem httpCloneHost_shares (s : Http) (parent : Nat) (hp : parent < s.nextHost) :
    (httpCloneHost s parent).2 ≠ parent ∧
    (((httpCloneHost s parent).1).hosts (httpCloneHost s parent).2).parent = some parent ∧
    (((httpCloneHost s parent).1).hosts (httpCloneHost s parent).2).routes =
      (((httpCloneHost s parent).1).hosts parent).routes ∧
    (((httpCloneHost s parent).1).hosts (httpCloneHost s parent).2).streams =
      (((httpCloneHost s parent).1).hosts parent).streams ∧
    ((httpCloneHost s parent).1).hosts parent = s.hosts parent ∧
    ((httpCloneHost s parent).1).lists = s.lists ∧
    ((httpCloneHost s parent).1).nextList = s.nextList ∧
    ((httpCloneHost s parent).1).hashes = s.hashes ∧
    ((httpCloneHost s parent).1).routes = s.routes := by
  have hne : parent ≠ s.nextHost := by omega
  unfold httpCloneHost httpAddHost
  dsimp only
  rw [Function.update_same, Function.update_noteq hne]
  exact ⟨fun h => hne h.symm, rfl, rfl, rfl, rfl, rfl, rfl, rfl, rfl⟩

/-- Claim C4 at a concrete memory: host 1 is the clone that `httpCloneHost` made of host 0,
whose table is `[0, 3]`, and route 2 is added to the clone. -/
theorem httpAddRoute_clone_isolation_witness :
    tableOf (httpAddRoute exampleClone 1 2) 0 = tableOf exampleClone 0 ∧
    (tableOf (httpAddRoute exampleClone 1 2) 0).length = (tableOf exampleClone 0).length ∧
    ((httpAddRoute exampleClone 1 2).hosts 0).routes = (exampleClone.hosts 0).routes ∧
    (∀ h, h ≠ 1 → (exampleClone.hosts h).routes < exampleClone.nextList →
      ((httpAddRoute exampleClone 1 2).hosts h).routes ≠
        ((httpAddRoute exampleClone 1 2).hosts 1).routes) ∧
    tableOf (httpAddRoute exampleClone 1 2) 1 =
      addToTable exampleClone.routes (tableOf exampleClone 0) 2 ∧
    (∀ x ∈ tableOf exampleClone 0, x ∈ tableOf (httpAddRoute exampleClone 1 2) 1) ∧
    2 ∈ tableOf (httpAddRoute exampleClone 1 2) 1 :=
  httpAddRoute_clone_isolation exampleClone 0 1 2 (by decide) (by decide) (by decide)
    (by decide)


/-- Claim C5 evaluated on the code: host 0 has the table `[0, 3]`, in which route 0 stores
`nextGroup = 1`, and host 1 is its clone.  Adding routes 1 and 2 to the clone leaves the table
of host 0 at `[0, 3]`, yet route 0 of that table now stores `nextGroup = 2`, the length of the
parent's table: the update went to the route object that both tables hold. -/
theorem addRoutes_clone_writes_parent_nextGroup :
    tableOf exampleClone 0 = [0, 3] ∧
    (exampleClone.routes 0).nextGroup = some 1 ∧
    (exampleClone.hosts 1).parent = some 0 ∧
    tableOf (addRoutes exampleClone 1 [1, 2]) 1 = [0, 1, 2, 3] ∧
    tableOf (addRoutes exampleClone 1 [1, 2]) 0 = [0, 3] ∧
    ((addRoutes exampleClone 1 [1, 2]).routes 0).nextGroup = some 2 := by
  decide

/-! ## Streaming policy -/

theorem find_cons_of_key_ne (kp : MprKey) (rest : List MprKey) (k : String)
    (h : kp.key ≠ k) :
    (kp :: rest).find? (fun x => x.key == k) = rest.find? (fun x => x.key == k) := by
  simp [List.find?_cons, h]

theorem find_mprAddKey_ne (table : List MprKey) (key k : String) (ptr : Option String)
    (h : k ≠ key) :
    (mprAddKey table key ptr).find? (fun kp => kp.key == k) =
      table.find? (fun kp => kp.key == k) := by
  induction table with
  | nil =>
    simp only [mprAddKey]
    rw [find_cons_of_key_ne _ _ _ (Ne.symm h)]
  | cons kp rest ih =>
    by_cases hk : kp.key = key
    · have hkk : kp.key ≠ k := by rw [hk]; exact Ne.symm h
      have e : mprAddKey (kp :: rest) key ptr = { kp with data := ptr } :: rest := by
        simp [mprAddKey, hk]
      rw [e, find_cons_of_key_ne kp rest k hkk,
        find_cons_of_key_ne { kp with data := ptr } rest k hkk]
    · have e : mprAddKey (kp :: rest) key ptr = kp :: mprAddKey rest key ptr := by
        simp [mprAddKey, hk]
      rw [e, List.find?_cons, List.find?_cons, ih]

theorem find_setKeyType_ne (table : List MprKey) (key k : String) (enable : Bool)
    (h : k ≠ key) :
    (setKeyType table key enable).find? (fun kp => kp.key == k) =
      table.find? (fun kp => kp.key == k) := by
  induction table with
  | nil => rfl
  | cons kp rest ih =>
    by_cases hk : kp.key = key
    · have hkk : kp.key ≠ k := by rw [hk]; exact Ne.symm h
      have e : setKeyType (kp :: rest) key enable = { kp with type := enable } :: rest := by
        simp [setKeyType, hk]
      rw [e, find_cons_of_key_ne kp rest k hkk,
        find_cons_of_key_ne { kp with type := enable } rest k hkk]
    · have e : setKeyType (kp :: rest) key enable = kp :: setKeyType rest key enable := by
        simp [setKeyType, hk]
      rw [e, List.find?_cons, List.find?_cons, ih]

theorem httpSetStreaming_hosts (s : Http) (host : Nat) (mime : String) (uri : Option String)
    (enable : Bool) : (httpSetStreaming s host mime uri enable).hosts = s.hosts := rfl

theorem httpSetStreaming_streamsOf (s : Http) (host : Nat) (mime : String)
    (uri : Option String) (enable : Bool) (h : Nat)
    (hshare : (s.hosts h).streams = (s.hosts host).streams) :
    streamsOf (httpSetStreaming s host mime uri enable) h =
      setKeyType (mprAddKey (streamsOf s host) mime uri) mime enable := by
  unfold streamsOf httpSetStreaming
  dsimp only
  rw [hshare, Function.update_same]

/-- Claim C6, amended: the streaming table is held by address and never copied.  When `clone`
holds the streaming table of `parent`, it still does after
`httpSetStreaming(clone, mime, pre, enabled)`; afterwards `httpGetStreaming` answers the same
for the parent as for the clone, for every mime type and URI, and its answer for the parent is
unchanged for every mime type whose stripped form is not `mime`. -/
theorem httpSetStreaming_shared (s : Http) (parent clone : Nat) (mime : String)
    (pre : Option String) (enabled : Bool)
    (hshare : (s.hosts clone).streams = (s.hosts parent).streams) :
    ((httpSetStreaming s clone mime pre enabled).hosts clone).streams =
        ((httpSetStreaming s clone mime pre enabled).hosts parent).streams ∧
    (∀ (m : String) (u : Option String),
      httpGetStreaming (httpSetStreaming s clone mime pre enabled) parent m u =
        httpGetStreaming (httpSetStreaming s clone mime pre enabled) clone m u) ∧
    (∀ (m : String) (u : Option String), stripParams m ≠ some mime →
      httpGetStreaming (httpSetStreaming s clone mime pre enabled) parent m u =
        httpGetStreaming s parent m u) := by
  refine ⟨hshare, ?_, ?_⟩
  · intro m u
    unfold httpGetStreaming
    rw [httpSetStreaming_streamsOf s clone mime pre enabled parent hshare.symm,
      httpSetStreaming_streamsOf s clone mime pre enabled clone rfl]
  · intro m u hm
    unfold httpGetStreaming
    rw [httpSetStreaming_streamsOf s clone mime pre enabled parent hshare.symm]
    have hs : streamsOf s clone = streamsOf s parent := by
      unfold streamsOf; rw [hshare]
    rw [hs]
    cases hk : stripParams m with
    | none => rfl
    | some k =>
      have hne : k ≠ mime := fun e => hm (by rw [hk, e])
      simp only [mprLookupKeyEntry]
      rw [find_setKeyType_ne _ _ _ _ hne, find_mprAddKey_ne _ _ _ _ hne]

/-- Claim C6, amended, at a concrete memory: host 1 is the clone of host 0. -/
theorem httpSetStreaming_shared_witness :
    ((httpSetStreaming exampleClone 1 "text/event-stream" (some "/live") false).hosts 1).streams =
        ((httpSetStreaming exampleClone 1 "text/event-stream" (some "/live") false).hosts
          0).streams ∧
    (∀ (m : String) (u : Option String),
      httpGetStreaming (httpSetStreaming exampleClone 1 "text/event-stream" (some "/live") false)
          0 m u =
        httpGetStreaming (httpSetStreaming exampleClone 1 "text/event-stream" (some "/live")
          false) 1 m u) ∧
    (∀ (m : String) (u : Option String), stripParams m ≠ some "text/event-stream" →
      httpGetStreaming (httpSetStreaming exampleClone 1 "text/event-stream" (some "/live") false)
          0 m u =
        httpGetStreaming exampleClone 0 m u) :=
  httpSetStreaming_shared exampleClone 0 1 "text/event-stream" (some "/live") false (by decide)

/-- Claim C6 fails as stated: host 1 is a clone of host 0, and after
`httpSetStreaming(1, "text/event-stream", "/live", false)` the answer of `httpGetStreaming` for
the parent host 0 has changed from true to false. -/
theorem httpSetStreaming_clone_changes_parent :
    (exampleClone.hosts 1).parent = some 0 ∧
    httpGetStreaming exampleClone 0 "text/event-stream" (some "/live") = true ∧
    httpGetStreaming (httpSetStreaming exampleClone 1 "text/event-stream" (some "/live") false)
      0 "text/event-stream" (some "/live") = false := by
  decide

theorem stripParams_of_no_params (mime : String) (h : ';' ∉ mime.data) :
    stripParams mime = some mime := by
  unfold stripParams schr
  have : mime.data.contains ';' = false := by
    simpa using h
  rw [this]
  rfl

theorem takeWhile_before_delim (l q : List Char) (c : Char) (h : c ∉ l) :
    (l ++ c :: q).takeWhile (fun x => x != c) = l := by
  induction l with
  | nil => simp
  | cons a l ih =>
    have ha : a ≠ c := fun e => h (by simp [e])
    have hl : c ∉ l := fun e => h (List.mem_cons_of_mem _ e)
    simp [List.takeWhile_cons, ha, ih hl]

theorem stok_first (m p : String) (h : ';' ∉ m.data) (hne : m ≠ "") :
    stok (m ++ ";" ++ p) ';' = some m := by
  obtain ⟨l⟩ := m
  cases l with
  | nil => exact absurd rfl hne
  | cons a l =>
    have ha : a ≠ ';' := fun e => h (by simp [e])
    have hdata : (({ data := a :: l } : String) ++ ";" ++ p).data = a :: (l ++ ';' :: p.data) := by
      simp [String.data_append]
    have hl : ';' ∉ l := fun e => h (List.mem_cons_of_mem _ e)
    unfold stok
    rw [hdata]
    have hdrop : (a :: (l ++ ';' :: p.data)).dropWhile (fun c => c == ';') =
        a :: (l ++ ';' :: p.data) := by
      simp [List.dropWhile_cons, ha]
    rw [hdrop]
    dsimp only
    have htake : (a :: (l ++ ';' :: p.data)).takeWhile (fun x => x != ';') = a :: l := by
      have := takeWhile_before_delim (a :: l) p.data ';' h
      simpa using this
    rw [htake]

theorem stripParams_of_params (m p : String) (h : ';' ∉ m.data) (hne : m ≠ "") :
    stripParams (m ++ ";" ++ p) = some m := by
  unfold stripParams schr
  have : (m ++ ";" ++ p).data.contains ';' = true := by
    simp [String.data_append]
  rw [this, if_pos rfl]
  exact stok_first m p h hne

/-- Claim C9: for a mime string without `;`, `httpGetStreaming(host, mime, uri)` is the
decision that the specification words: true without an entry for the mime type, the flag of
the entry without a URI prefix or when the URI starts with the prefix, true otherwise. -/
theorem httpGetStreaming_eq_decision (s : Http) (host : Nat) (mime : String)
    (uri : Option String) (hmime : ';' ∉ mime.data) :
    httpGetStreaming s host mime uri = streamingDecision (streamsOf s host) mime uri := by
  unfold httpGetStreaming streamingDecision
  rw [stripParams_of_no_params mime hmime]
  simp only [mprLookupKeyEntry]
  have hfind : (streamsOf s host).find? (fun kp => kp.key == mime) =
      (streamsOf s host).find? (fun kp => decide (kp.key = mime)) := by
    rfl
  rw [hfind]
  cases (streamsOf s host).find? (fun kp => decide (kp.key = mime)) with
  | none => rfl
  | some entry =>
    dsimp only
    cases hd : entry.data with
    | none => simp
    | some pre =>
      cases uri with
      | none => simp [sstarts]
      | some u =>
        simp only [sstarts, List.isPrefixOf_iff_prefix]
        simp

/-- Claim C9 at a concrete table with a rule for `text/event-stream` under `/live`. -/
theorem httpGetStreaming_eq_decision_witness :
    httpGetStreaming (httpSetStreaming exampleHost 0 "text/event-stream" (some "/live") false) 0
        "text/event-stream" (some "/live/feed") =
      streamingDecision
        (streamsOf (httpSetStreaming exampleHost 0 "text/event-stream" (some "/live") false) 0)
        "text/event-stream" (some "/live/feed") :=
  httpGetStreaming_eq_decision _ 0 "text/event-stream" (some "/live/feed") (by decide)

/-- Claim C10, amended: for a non-empty mime type `m` without `;`, any parameter string `p` and
any URI, `httpGetStreaming(host, m ++ ";" ++ p, u)` is `httpGetStreaming(host, m, u)`. -/
theorem httpGetStreaming_strips_params (s : Http) (host : Nat) (m p : String)
    (u : Option String) (hm : ';' ∉ m.data) (hne : m ≠ "") :
    httpGetStreaming s host (m ++ ";" ++ p) u = httpGetStreaming s host m u := by
  unfold httpGetStreaming
  rw [stripParams_of_params m p hm hne, stripParams_of_no_params m hm]

/-- Claim C10, amended, at `application/json; charset=utf-8` and the URI `/api`. -/
theorem httpGetStreaming_strips_params_witness :
    httpGetStreaming exampleHost 0 ("application/json" ++ ";" ++ " charset=utf-8") (some "/api") =
      httpGetStreaming exampleHost 0 "application/json" (some "/api") :=
  httpGetStreaming_strips_params exampleHost 0 "application/json" " charset=utf-8" (some "/api")
    (by decide) (by decide)

/-- Claim C10 fails as stated at the empty mime type: with a rule that disables streaming for
the key `charset=utf-8`, the mime string `;charset=utf-8` is tokenized to that key and gets
false, while the empty mime string has no rule and gets true. -/
theorem httpGetStreaming_empty_type :
    ';' ∉ ("" : String).data ∧
    httpGetStreaming (httpSetStreaming exampleHost 0 "charset=utf-8" none false) 0
      ("" ++ ";" ++ "charset=utf-8") (some "/api") = false ∧
    httpGetStreaming (httpSetStreaming exampleHost 0 "charset=utf-8" none false) 0
      "" (some "/api") = true := by
  decide


/-! ## The grouping update -/

theorem setNextGroup_nextGroup (rt : Nat → HttpRoute) (r idx x : Nat) :
    (setNextGroup rt r idx x).nextGroup = if x = r then some idx else (rt x).nextGroup := by
  unfold setNextGroup
  by_cases h : x = r
  · subst h
    rw [Function.update_same, if_pos rfl]
  · rw [Function.update_noteq h, if_neg h]

theorem setNextGroup_startSegment (rt : Nat → HttpRoute) (r idx x : Nat) :
    (setNextGroup rt r idx x).startSegment = (rt x).startSegment :=
  (setNextGroup_sameFixed rt r idx x).2.2.1

theorem reached_congr {rt rt2 : Nat → HttpRoute}
    (h : ∀ i, (rt2 i).startSegment = (rt i).startSegment) (items : List Nat)
    (seg : Option String) (n x : Nat) :
    reached rt2 items seg n x ↔ reached rt items seg n x := by
  unfold reached
  simp only [h]

theorem walkBack_nextGroup (items : List Nat) (prev idx : Nat) :
    ∀ (n : Nat) (rt : Nat → HttpRoute), n ≤ items.length → ∀ x,
      (reached rt items (rt prev).startSegment n x →
        (walkBack items prev idx n rt x).nextGroup = some idx) ∧
      (¬ reached rt items (rt prev).startSegment n x →
        (walkBack items prev idx n rt x).nextGroup = (rt x).nextGroup) := by
  intro n
  induction n with
  | zero =>
    intro rt _ x
    constructor
    · rintro ⟨k, hk, _⟩
      omega
    · intro _
      rfl
  | succ n ih =>
    intro rt hn x
    have hlt : n < items.length := by omega
    have hget : items[n]? = some items[n] := List.getElem?_eq_getElem hlt
    simp only [walkBack, mprGetItem, hget]
    by_cases hseg : (rt items[n]).startSegment = (rt prev).startSegment
    · have hsm : smatch (rt items[n]).startSegment (rt prev).startSegment = true := by
        simp [smatch, hseg]
      rw [if_pos hsm]
      have hrec := ih (setNextGroup rt items[n] idx) (by omega) x
      rw [setNextGroup_startSegment] at hrec
      rw [reached_congr (setNextGroup_startSegment rt items[n] idx)] at hrec
      rw [setNextGroup_nextGroup] at hrec
      constructor
      · rintro ⟨k, hk, hkx, hall⟩
        by_cases hkn : k < n
        · exact hrec.1 ⟨k, hkn, hkx, fun m h1 h2 => hall m h1 (by omega)⟩
        · have hkeq : k = n := by omega
          subst hkeq
          have hx : x = items[k] := by
            rw [hget] at hkx
            exact (Option.some.inj hkx).symm
          by_cases hr : reached rt items (rt prev).startSegment k x
          · exact hrec.1 hr
          · rw [hrec.2 hr, if_pos hx]
      · intro hnot
        have hnr : ¬ reached rt items (rt prev).startSegment n x := by
          rintro ⟨k, hk, hkx, hall⟩
          refine hnot ⟨k, by omega, hkx, fun m h1 h2 y hy => ?_⟩
          by_cases hmn : m < n
          · exact hall m h1 hmn y hy
          · have hmeq : m = n := by omega
            subst hmeq
            rw [hget] at hy
            rw [← Option.some.inj hy]
            exact hseg
        have hxne : x ≠ items[n] := by
          intro hx
          refine hnot ⟨n, by omega, by rw [hget, hx], fun m h1 h2 y hy => ?_⟩
          have hmeq : m = n := by omega
          subst hmeq
          rw [hget] at hy
          rw [← Option.some.inj hy]
          exact hseg
        rw [hrec.2 hnr, if_neg hxne]
    · have hsm : ¬ smatch (rt items[n]).startSegment (rt prev).startSegment = true := by
        simp [smatch, hseg]
      rw [if_neg hsm]
      constructor
      · rintro ⟨k, hk, hkx, hall⟩
        exact absurd (hall n (by omega) (by omega) _ hget) hseg
      · intro _
        rfl

theorem groupRoutes_nextGroup (rt : Nat → HttpRoute) (items : List Nat) (idx route prev : Nat)
    (hpos : 0 < idx) (hlen : idx ≤ items.length) (hprev : items[idx - 1]? = some prev)
    (hseg : (rt prev).startSegment ≠ (rt route).startSegment) (x : Nat) :
    (reached rt items (rt prev).startSegment idx x →
      (groupRoutes rt items idx route x).nextGroup = some idx) ∧
    (¬ reached rt items (rt prev).startSegment idx x →
      (groupRoutes rt items idx route x).nextGroup = (rt x).nextGroup) := by
  have hsm : smatch (rt prev).startSegment (rt route).startSegment = false := by
    simp [smatch, hseg]
  have hg : groupRoutes rt items idx route =
      walkBack items prev idx (idx - 1) (setNextGroup rt prev idx) := by
    simp [groupRoutes, mprGetItem, hprev, hpos, hsm]
  rw [hg]
  have hrec := walkBack_nextGroup items prev idx (idx - 1) (setNextGroup rt prev idx)
    (by omega) x
  rw [setNextGroup_startSegment] at hrec
  rw [reached_congr (setNextGroup_startSegment rt prev idx)] at hrec
  rw [setNextGroup_nextGroup] at hrec
  constructor
  · rintro ⟨k, hk, hkx, hall⟩
    by_cases hr : reached rt items (rt prev).startSegment (idx - 1) x
    · exact hrec.1 hr
    · rw [hrec.2 hr]
      by_cases hkn : k < idx - 1
      · exact absurd ⟨k, hkn, hkx, fun m h1 h2 => hall m h1 (by omega)⟩ hr
      · have hkeq : k = idx - 1 := by omega
        rw [hkeq, hprev] at hkx
        rw [if_pos (Option.some.inj hkx).symm]
  · intro hnot
    have hnr : ¬ reached rt items (rt prev).startSegment (idx - 1) x := by
      rintro ⟨k, hk, hkx, hall⟩
      refine hnot ⟨k, by omega, hkx, fun m h1 h2 y hy => ?_⟩
      by_cases hmn : m < idx - 1
      · exact hall m h1 hmn y hy
      · have hmeq : m = idx - 1 := by omega
        rw [hmeq, hprev] at hy
        rw [← Option.some.inj hy]
    have hxne : x ≠ prev := by
      intro hx
      refine hnot ⟨idx - 1, by omega, by rw [hprev, hx], fun m h1 h2 y hy => ?_⟩
      have hmeq : m = idx - 1 := by omega
      rw [hmeq, hprev] at hy
      rw [← Option.some.inj hy]
    rw [hrec.2 hnr, if_neg hxne]

theorem groupRoutes_same_segment (rt : Nat → HttpRoute) (items : List Nat) (idx route prev : Nat)
    (hprev : items[idx - 1]? = some prev)
    (hseg : (rt prev).startSegment = (rt route).startSegment) :
    groupRoutes rt items idx route = rt := by
  have hsm : smatch (rt prev).startSegment (rt route).startSegment = true := by
    simp [smatch, hseg]
  unfold groupRoutes
  simp only [mprGetItem, hprev, hsm, not_true_eq_false, if_false]
  split <;> rfl

theorem groupRoutes_zero (rt : Nat → HttpRoute) (items : List Nat) (route : Nat) :
    groupRoutes rt items 0 route = rt := by
  unfold groupRoutes
  simp


/-! ## Positions after an insertion -/

theorem getElem?_insert_lt (items : List Nat) (idx r k : Nat) (hidx : idx ≤ items.length)
    (hk : k < idx) : (items.take idx ++ r :: items.drop idx)[k]? = items[k]? := by
  rw [List.getElem?_append_left (by rw [List.length_take]; omega)]
  rw [List.getElem?_take_of_lt hk]

theorem getElem?_insert_eq (items : List Nat) (idx r : Nat) (hidx : idx ≤ items.length) :
    (items.take idx ++ r :: items.drop idx)[idx]? = some r := by
  have hl : (items.take idx).length = idx := by rw [List.length_take]; omega
  rw [List.getElem?_append_right (by omega), hl]
  simp

theorem getElem?_insert_gt (items : List Nat) (idx r k : Nat) (hidx : idx ≤ items.length)
    (hk : idx ≤ k) : (items.take idx ++ r :: items.drop idx)[k + 1]? = items[k]? := by
  have hl : (items.take idx).length = idx := by rw [List.length_take]; omega
  rw [List.getElem?_append_right (by omega), hl]
  have : k + 1 - idx = (k - idx) + 1 := by omega
  rw [this, List.getElem?_cons_succ, List.getElem?_drop]
  congr 1
  omega

theorem insertRoute_shape (rt : Nat → HttpRoute) (items : List Nat) (r : Nat) :
    (insertRoute rt items r).2 ≤ items.length ∧
    items.length ≤ (insertRoute rt items r).2 + 1 ∧
    (insertRoute rt items r).1 =
      items.take (insertRoute rt items r).2 ++ r :: items.drop (insertRoute rt items r).2 := by
  unfold insertRoute mprInsertItemAtPos mprAddItem mprGetListLength
  split
  · dsimp only
    exact ⟨by omega, by omega, rfl⟩
  · dsimp only
    exact ⟨le_refl _, by omega, by simp⟩

theorem nodup_insert (items : List Nat) (idx r : Nat) (hnd : items.Nodup) (hr : r ∉ items) :
    (items.take idx ++ r :: items.drop idx).Nodup := by
  have hperm : (items.take idx ++ r :: items.drop idx).Perm (r :: items) := by
    have h1 := @List.perm_middle _ r (items.take idx) (items.drop idx)
    rw [List.take_append_drop] at h1
    exact h1
  exact hperm.nodup_iff.mpr (List.nodup_cons.mpr ⟨hr, hnd⟩)

theorem mem_insert (items : List Nat) (idx r x : Nat) :
    x ∈ items.take idx ++ r :: items.drop idx ↔ x = r ∨ x ∈ items := by
  have hperm : (items.take idx ++ r :: items.drop idx).Perm (r :: items) := by
    have h1 := @List.perm_middle _ r (items.take idx) (items.drop idx)
    rw [List.take_append_drop] at h1
    exact h1
  rw [hperm.mem_iff, List.mem_cons]

theorem getElem?_inj_of_nodup {items : List Nat} (hnd : items.Nodup) {i j x : Nat}
    (hi : items[i]? = some x) (hj : items[j]? = some x) : i = j := by
  have hil : i < items.length := by
    by_contra h
    rw [List.getElem?_eq_none (by omega)] at hi
    exact absurd hi (by simp)
  have hjl : j < items.length := by
    by_contra h
    rw [List.getElem?_eq_none (by omega)] at hj
    exact absurd hj (by simp)
  rw [List.getElem?_eq_getElem hil] at hi
  rw [List.getElem?_eq_getElem hjl] at hj
  exact (List.Nodup.getElem_inj_iff hnd).mp ((Option.some.inj hi).trans (Option.some.inj hj).symm)

theorem httpSetRouteHost_nextGroup (rt : Nat → HttpRoute) (route host x : Nat) :
    (httpSetRouteHost rt route host x).nextGroup = (rt x).nextGroup := by
  unfold httpSetRouteHost
  by_cases h : x = route
  · subst h
    rw [Function.update_same]
  · rw [Function.update_noteq h]

theorem addRoutes_state (host : Nat) (rs : List Nat) :
    ∀ s : Http, (tableOf (addRoutes s host rs) host, (addRoutes s host rs).routes) =
      rs.foldl (addStep host) (tableOf s host, s.routes) := by
  induction rs with
  | nil => intro s; rfl
  | cons r rs ih =>
    intro s
    simp only [addRoutes, List.foldl_cons] at ih ⊢
    rw [ih (httpAddRoute s host r), httpAddRoute_tableOf, httpAddRoute_routes]
    rfl

theorem reached_insert (rt : Nat → HttpRoute) (items : List Nat) (idx r : Nat)
    (seg : Option String) (x : Nat) (hidx : idx ≤ items.length) :
    reached rt (items.take idx ++ r :: items.drop idx) seg idx x ↔
      reached rt items seg idx x := by
  unfold reached
  constructor
  · rintro ⟨k, hk, hkx, hall⟩
    refine ⟨k, hk, ?_, fun m h1 h2 y hy => hall m h1 h2 y ?_⟩
    · rw [← getElem?_insert_lt items idx r k hidx hk]; exact hkx
    · rw [getElem?_insert_lt items idx r m hidx h2]; exact hy
  · rintro ⟨k, hk, hkx, hall⟩
    refine ⟨k, hk, ?_, fun m h1 h2 y hy => hall m h1 h2 y ?_⟩
    · rw [getElem?_insert_lt items idx r k hidx hk]; exact hkx
    · rw [← getElem?_insert_lt items idx r m hidx h2]; exact hy

theorem addStep_table (host : Nat) (rt : Nat → HttpRoute) (items : List Nat) (r : Nat)
    (hr : r ∉ items) :
    (addStep host (items, rt) r).1 =
      items.take (insertRoute rt items r).2 ++ r :: items.drop (insertRoute rt items r).2 := by
  unfold addStep
  dsimp only
  rw [addToTable_of_not_mem _ _ _ hr]
  exact (insertRoute_shape rt items r).2.2

theorem addStep_nextGroup (host : Nat) (rt : Nat → HttpRoute) (items : List Nat) (r : Nat)
    (hr : r ∉ items) (x : Nat) :
    (regrouped rt items (insertRoute rt items r).2 r x →
      ((addStep host (items, rt) r).2 x).nextGroup = some (insertRoute rt items r).2) ∧
    (¬ regrouped rt items (insertRoute rt items r).2 r x →
      ((addStep host (items, rt) r).2 x).nextGroup = (rt x).nextGroup) := by
  obtain ⟨h1, h2, h3⟩ := insertRoute_shape rt items r
  have hstep : ((addStep host (items, rt) r).2 x).nextGroup =
      (groupRoutes rt (insertRoute rt items r).1 (insertRoute rt items r).2 r x).nextGroup := by
    unfold addStep addToRoutes
    dsimp only
    rw [httpSetRouteHost_nextGroup, if_pos (mprLookupItem_neg_of_not_mem hr)]
  rw [hstep]
  generalize (insertRoute rt items r).2 = idx at h1 h2 h3 ⊢
  rw [h3]
  by_cases hpos : 0 < idx
  · have hlt : idx - 1 < items.length := by omega
    have hprev : items[idx - 1]? = some items[idx - 1] := List.getElem?_eq_getElem hlt
    have hprev2 : (items.take idx ++ r :: items.drop idx)[idx - 1]? = some items[idx - 1] := by
      rw [getElem?_insert_lt items idx r (idx - 1) h1 (by omega)]; exact hprev
    by_cases hseg : (rt items[idx - 1]).startSegment = (rt r).startSegment
    · rw [groupRoutes_same_segment rt _ idx r _ hprev2 hseg]
      constructor
      · rintro ⟨_, prev, hp, hne, _⟩
        rw [hprev] at hp
        rw [← Option.some.inj hp] at hne
        exact absurd hseg hne
      · intro _
        rfl
    · have hg := groupRoutes_nextGroup rt (items.take idx ++ r :: items.drop idx) idx r
        items[idx - 1] hpos (by simp; omega) hprev2 hseg x
      rw [reached_insert rt items idx r _ x h1] at hg
      constructor
      · rintro ⟨_, prev, hp, _, hreach⟩
        rw [hprev] at hp
        rw [← Option.some.inj hp] at hreach
        exact hg.1 hreach
      · intro hnot
        exact hg.2 (fun hreach => hnot ⟨hpos, items[idx - 1], hprev, hseg, hreach⟩)
  · have h0 : idx = 0 := by omega
    subst h0
    rw [groupRoutes_zero]
    constructor
    · rintro ⟨hp, _⟩
      omega
    · intro _
      rfl

theorem regrouped_mem {rt : Nat → HttpRoute} {items : List Nat} {idx r x : Nat}
    (h : regrouped rt items idx r x) : x ∈ items := by
  obtain ⟨_, _, _, _, k, _, hkx, _⟩ := h
  exact List.getElem?_mem hkx

theorem addStep_startSegment (host : Nat) (rt : Nat → HttpRoute) (items : List Nat) (r x : Nat) :
    ((addStep host (items, rt) r).2 x).startSegment = (rt x).startSegment :=
  (addToRoutes_sameFixed rt items r host x).2.2.1

theorem getElem?_none_of_le {items : List Nat} {i : Nat} {x : Nat} (h : items[i]? = some x) :
    i < items.length := by
  by_contra hc
  rw [List.getElem?_eq_none (by omega)] at h
  exact absurd h (by simp)

theorem addStep_nodup (host : Nat) (rt : Nat → HttpRoute) (items : List Nat) (r : Nat)
    (hnd : items.Nodup) (hr : r ∉ items) : (addStep host (items, rt) r).1.Nodup := by
  rw [addStep_table host rt items r hr]
  exact nodup_insert items _ r hnd hr

theorem addStep_mem (host : Nat) (rt : Nat → HttpRoute) (items : List Nat) (r x : Nat)
    (hr : r ∉ items) : x ∈ (addStep host (items, rt) r).1 ↔ x = r ∨ x ∈ items := by
  rw [addStep_table host rt items r hr]
  exact mem_insert items _ r x

theorem addStep_grouped (rank : Nat → Nat) (host : Nat) (rt : Nat → HttpRoute)
    (items : List Nat) (r : Nat) (hnd : items.Nodup) (hr : r ∉ items)
    (hrank : ∀ x ∈ items, rank x < rank r) (hinv : Grouped rank items rt) :
    Grouped rank (addStep host (items, rt) r).1 (addStep host (items, rt) r).2 := by
  intro a b x y z hab hx hy hz hyz hseg hrun
  simp only [addStep_startSegment] at hseg hrun
  have hng := addStep_nextGroup host rt items r hr x
  obtain ⟨h1, h2, _⟩ := insertRoute_shape rt items r
  rw [addStep_table host rt items r hr] at hx hy hz hrun
  generalize (insertRoute rt items r).2 = idx at h1 h2 hx hy hz hrun hng
  rcases Nat.lt_trichotomy b idx with hb | hb | hb
  · -- the stretch and its successor lie before the new route
    rw [getElem?_insert_lt items idx r a h1 (by omega)] at hx
    rw [getElem?_insert_lt items idx r (b - 1) h1 (by omega)] at hy
    rw [getElem?_insert_lt items idx r b h1 hb] at hz
    have hrun2 : ∀ m, a ≤ m → m < b → ∀ w, items[m]? = some w →
        (rt w).startSegment = (rt y).startSegment := by
      intro m hm1 hm2 w hw
      exact hrun m hm1 hm2 w (by rw [getElem?_insert_lt items idx r m h1 (by omega)]; exact hw)
    have hold := hinv a b x y z hab hx hy hz hyz hseg hrun2
    have hnot : ¬ regrouped rt items idx r x := by
      rintro ⟨_, prev, _, _, k, hk, hkx, hall⟩
      have hka : k = a := getElem?_inj_of_nodup hnd hkx hx
      subst hka
      have e1 := hall (b - 1) (by omega) (by omega) y hy
      have e2 := hall b (by omega) hb z hz
      exact hseg (e2.trans e1.symm)
    rw [hng.2 hnot]
    exact hold
  · -- the new route follows the stretch
    subst hb
    rw [getElem?_insert_lt items b r a h1 hab] at hx
    rw [getElem?_insert_lt items b r (b - 1) h1 (by omega)] at hy
    rw [getElem?_insert_eq items b r h1] at hz
    have hzr : r = z := Option.some.inj hz
    subst hzr
    refine hng.1 ⟨by omega, y, hy, fun e => hseg e.symm, a, hab, hx, ?_⟩
    intro m hm1 hm2 w hw
    exact hrun m hm1 hm2 w (by rw [getElem?_insert_lt items b r m h1 hm2]; exact hw)
  · -- the successor would be older than the new route
    exfalso
    by_cases hb2 : b = idx + 1
    · subst hb2
      have hy2 : (items.take idx ++ r :: items.drop idx)[idx]? = some y := by
        simpa using hy
      rw [getElem?_insert_eq items idx r h1] at hy2
      have hyr : r = y := Option.some.inj hy2
      subst hyr
      rw [getElem?_insert_gt items idx r idx h1 (le_refl _)] at hz
      have := hrank z (List.getElem?_mem hz)
      omega
    · have hb3 : b = (b - 1) + 1 := by omega
      rw [hb3, getElem?_insert_gt items idx r (b - 1) h1 (by omega)] at hz
      have := getElem?_none_of_le hz
      omega

theorem addStep_setBeforeNewer (rank : Nat → Nat) (host : Nat) (rt : Nat → HttpRoute)
    (items : List Nat) (r : Nat) (hnd : items.Nodup) (hr : r ∉ items)
    (hrank : ∀ x ∈ items, rank x < rank r) (hfresh : (rt r).nextGroup = none)
    (hinj : ∀ x ∈ items, ∀ y ∈ items, (rt x).startSegment = (rt y).startSegment → x = y)
    (hinv : SetBeforeNewer rank items rt) :
    SetBeforeNewer rank (addStep host (items, rt) r).1 (addStep host (items, rt) r).2 := by
  intro i x hix hne
  have hng := addStep_nextGroup host rt items r hr x
  have hnd2 := addStep_nodup host rt items r hnd hr
  obtain ⟨h1, h2, _⟩ := insertRoute_shape rt items r
  rw [addStep_table host rt items r hr] at hix hnd2 ⊢
  generalize (insertRoute rt items r).2 = idx at h1 h2 hix hng hnd2 ⊢
  by_cases hreg : regrouped rt items idx r x
  · obtain ⟨hpos, prev, hp, _, k, hk, hkx, hall⟩ := hreg
    have hxp : x = prev :=
      hinj x (List.getElem?_mem hkx) prev (List.getElem?_mem hp) (hall k (le_refl _) hk x hkx)
    subst hxp
    have hpos2 : (items.take idx ++ r :: items.drop idx)[idx - 1]? = some x := by
      rw [getElem?_insert_lt items idx r (idx - 1) h1 (by omega)]; exact hp
    have hi : i = idx - 1 := getElem?_inj_of_nodup hnd2 hix hpos2
    refine ⟨r, ?_, hrank x (List.getElem?_mem hp)⟩
    have : i + 1 = idx := by omega
    rw [this]
    exact getElem?_insert_eq items idx r h1
  · rw [hng.2 hreg] at hne
    rcases Nat.lt_trichotomy i idx with hi | hi | hi
    · rw [getElem?_insert_lt items idx r i h1 hi] at hix
      obtain ⟨z, hz, hxz⟩ := hinv i x hix hne
      by_cases hi2 : i + 1 < idx
      · exact ⟨z, by rw [getElem?_insert_lt items idx r (i + 1) h1 hi2]; exact hz, hxz⟩
      · have : i + 1 = idx := by omega
        rw [this]
        exact ⟨r, getElem?_insert_eq items idx r h1, hrank x (List.getElem?_mem hix)⟩
    · subst hi
      rw [getElem?_insert_eq items i r h1] at hix
      rw [← Option.some.inj hix] at hne
      exact absurd hfresh hne
    · exfalso
      have hi3 : i = (i - 1) + 1 := by omega
      rw [hi3, getElem?_insert_gt items idx r (i - 1) h1 (by omega)] at hix
      obtain ⟨z, hz, _⟩ := hinv (i - 1) x hix hne
      have := getElem?_none_of_le hz
      omega

theorem addStep_nextGroup_of_not_mem (host : Nat) (rt : Nat → HttpRoute) (items : List Nat)
    (r x : Nat) (hr : r ∉ items) (hx : x ∉ items) :
    ((addStep host (items, rt) r).2 x).nextGroup = (rt x).nextGroup :=
  (addStep_nextGroup host rt items r hr x).2 (fun h => hx (regrouped_mem h))


theorem foldl_addStep_startSegment (host : Nat) :
    ∀ (rs items : List Nat) (rt : Nat → HttpRoute) (x : Nat),
      ((rs.foldl (addStep host) (items, rt)).2 x).startSegment = (rt x).startSegment := by
  intro rs
  induction rs with
  | nil => intro items rt x; rfl
  | cons r rs ih =>
    intro items rt x
    rw [List.foldl_cons]
    have := ih (addStep host (items, rt) r).1 (addStep host (items, rt) r).2 x
    rw [this, addStep_startSegment]

theorem foldl_addStep_grouped (rank : Nat → Nat) (host : Nat) :
    ∀ (rs items : List Nat) (rt : Nat → HttpRoute),
      items.Nodup → Grouped rank items rt →
      rs.Pairwise (fun a b => rank a < rank b) →
      (∀ r ∈ rs, r ∉ items ∧ ∀ x ∈ items, rank x < rank r) →
      (rs.foldl (addStep host) (items, rt)).1.Nodup ∧
      (∀ x ∈ (rs.foldl (addStep host) (items, rt)).1, x ∈ items ∨ x ∈ rs) ∧
      Grouped rank (rs.foldl (addStep host) (items, rt)).1
        (rs.foldl (addStep host) (items, rt)).2 := by
  intro rs
  induction rs with
  | nil =>
    intro items rt hnd hg _ _
    exact ⟨hnd, fun x hx => Or.inl hx, hg⟩
  | cons r rs ih =>
    intro items rt hnd hg hpw hnew
    rw [List.foldl_cons]
    have hr : r ∉ items := (hnew r (by simp)).1
    have hrank : ∀ x ∈ items, rank x < rank r := (hnew r (by simp)).2
    have hpw2 := List.pairwise_cons.mp hpw
    have hstep := ih (addStep host (items, rt) r).1 (addStep host (items, rt) r).2
      (addStep_nodup host rt items r hnd hr)
      (addStep_grouped rank host rt items r hnd hr hrank hg) hpw2.2
      (fun q hq => by
        have hrq : rank r < rank q := hpw2.1 q hq
        constructor
        · intro hmem
          rcases (addStep_mem host rt items r q hr).mp hmem with h | h
          · rw [h] at hrq; omega
          · exact (hnew q (List.mem_cons_of_mem _ hq)).1 h
        · intro x hx
          rcases (addStep_mem host rt items r x hr).mp hx with h | h
          · rw [h]; exact hrq
          · exact (hnew q (List.mem_cons_of_mem _ hq)).2 x h)
    refine ⟨hstep.1, fun x hx => ?_, hstep.2.2⟩
    rcases hstep.2.1 x hx with h | h
    · rcases (addStep_mem host rt items r x hr).mp h with h2 | h2
      · exact Or.inr (by simp [h2])
      · exact Or.inl h2
    · exact Or.inr (List.mem_cons_of_mem _ h)

theorem foldl_addStep_setBeforeNewer (rank : Nat → Nat) (host : Nat) :
    ∀ (rs items : List Nat) (rt : Nat → HttpRoute),
      items.Nodup → SetBeforeNewer rank items rt →
      rs.Pairwise (fun a b => rank a < rank b) →
      (∀ r ∈ rs, r ∉ items ∧ ∀ x ∈ items, rank x < rank r) →
      (∀ r ∈ rs, (rt r).nextGroup = none) →
      (∀ x ∈ items ++ rs, ∀ y ∈ items ++ rs,
        (rt x).startSegment = (rt y).startSegment → x = y) →
      SetBeforeNewer rank (rs.foldl (addStep host) (items, rt)).1
        (rs.foldl (addStep host) (items, rt)).2 := by
  intro rs
  induction rs with
  | nil =>
    intro items rt _ hs _ _ _ _
    exact hs
  | cons r rs ih =>
    intro items rt hnd hs hpw hnew hfresh hinj
    rw [List.foldl_cons]
    have hr : r ∉ items := (hnew r (by simp)).1
    have hrank : ∀ x ∈ items, rank x < rank r := (hnew r (by simp)).2
    have hpw2 := List.pairwise_cons.mp hpw
    have hnotin : ∀ q ∈ rs, q ∉ (addStep host (items, rt) r).1 := by
      intro q hq hmem
      have hrq : rank r < rank q := hpw2.1 q hq
      rcases (addStep_mem host rt items r q hr).mp hmem with h | h
      · rw [h] at hrq; omega
      · exact (hnew q (List.mem_cons_of_mem _ hq)).1 h
    apply ih (addStep host (items, rt) r).1 (addStep host (items, rt) r).2
      (addStep_nodup host rt items r hnd hr)
      (addStep_setBeforeNewer rank host rt items r hnd hr hrank (hfresh r (by simp))
        (fun x hx y hy => hinj x (by simp [hx]) y (by simp [hy])) hs) hpw2.2
    · intro q hq
      refine ⟨hnotin q hq, fun x hx => ?_⟩
      rcases (addStep_mem host rt items r x hr).mp hx with h | h
      · rw [h]; exact hpw2.1 q hq
      · exact (hnew q (List.mem_cons_of_mem _ hq)).2 x h
    · intro q hq
      rw [addStep_nextGroup_of_not_mem host rt items r q hr
        (hnew q (List.mem_cons_of_mem _ hq)).1]
      exact hfresh q (List.mem_cons_of_mem _ hq)
    · intro x hx y hy
      simp only [addStep_startSegment]
      have hmem : ∀ w, w ∈ (addStep host (items, rt) r).1 ++ rs → w ∈ items ++ r :: rs := by
        intro w hw
        rcases List.mem_append.mp hw with h | h
        · rcases (addStep_mem host rt items r w hr).mp h with h2 | h2
          · simp [h2]
          · simp [h2]
        · simp [h]
      exact hinj x (hmem x hx) y (hmem y hy)

theorem pairwise_indexOf (rs : List Nat) (hnd : rs.Nodup) :
    rs.Pairwise (fun a b => rs.indexOf a < rs.indexOf b) := by
  rw [List.pairwise_iff_getElem]
  intro i j hi hj hij
  rw [List.indexOf_getElem hnd i hi, List.indexOf_getElem hnd j hj]
  exact hij

theorem pairwise_indexOf_take (rs : List Nat) (hnd : rs.Nodup) (k : Nat) :
    (rs.take k).Pairwise (fun a b => rs.indexOf a < rs.indexOf b) :=
  (pairwise_indexOf rs hnd).sublist (List.take_sublist k rs)


/-- Claim C8, amended: in the table reached from an empty table by adding a prefix of the
pairwise distinct routes `rs`, take a stretch `[a, b)` of routes that all have the start
segment of the route at `b - 1`, followed at `b` by a route with another start segment that
was added after the route at `b - 1`.  Then every route of the stretch, the first one and the
inner ones alike, stores `nextGroup = b`, the index one past the run. -/
theorem addRoutes_run_nextGroup (s : Http) (host : Nat) (rs : List Nat)
    (hempty : tableOf s host = []) (hdistinct : rs.Nodup) (k a b y z : Nat)
    (hy : (tableOf (addRoutes s host (rs.take k)) host)[b - 1]? = some y)
    (hz : (tableOf (addRoutes s host (rs.take k)) host)[b]? = some z)
    (hlater : rs.indexOf y < rs.indexOf z)
    (hseg : ((addRoutes s host (rs.take k)).routes z).startSegment ≠
      ((addRoutes s host (rs.take k)).routes y).startSegment)
    (hrun : ∀ m, a ≤ m → m < b → ∀ w,
      (tableOf (addRoutes s host (rs.take k)) host)[m]? = some w →
        ((addRoutes s host (rs.take k)).routes w).startSegment =
          ((addRoutes s host (rs.take k)).routes y).startSegment)
    (m x : Nat) (hm1 : a ≤ m) (hm2 : m < b)
    (hx : (tableOf (addRoutes s host (rs.take k)) host)[m]? = some x) :
    ((addRoutes s host (rs.take k)).routes x).nextGroup = some b := by
  have hstate := addRoutes_state host (rs.take k) s
  have hinv := foldl_addStep_grouped (fun x => rs.indexOf x) host (rs.take k) [] s.routes
    List.nodup_nil (fun a b x y z _ hx => by simp at hx)
    (pairwise_indexOf_take rs hdistinct k) (fun r _ => ⟨by simp, by simp⟩)
  rw [hempty] at hstate
  rw [← hstate] at hinv
  exact hinv.2.2 m b x y z hm2 hx hy hz hlater hseg
    (fun n hn1 hn2 w hw => hrun n (by omega) hn2 w hw)

/-- Claim C8, amended, at a concrete sequence: the table is `[0, 1, 2, 3]`, routes 0 and 1
share a start segment and route 2, added after route 1, follows them. -/
theorem addRoutes_run_nextGroup_witness :
    ((addRoutes exampleHost 0 ([0, 3, 1, 2].take 4)).routes 0).nextGroup = some 2 ∧
    ((addRoutes exampleHost 0 ([0, 3, 1, 2].take 4)).routes 1).nextGroup = some 2 :=
  have hrun : ∀ m, 0 ≤ m → m < 2 → ∀ w,
      (tableOf (addRoutes exampleHost 0 ([0, 3, 1, 2].take 4)) 0)[m]? = some w →
        ((addRoutes exampleHost 0 ([0, 3, 1, 2].take 4)).routes w).startSegment =
          ((addRoutes exampleHost 0 ([0, 3, 1, 2].take 4)).routes 1).startSegment := by
    intro m _ hm w hw
    have htab : tableOf (addRoutes exampleHost 0 ([0, 3, 1, 2].take 4)) 0 = [0, 1, 2, 3] := by
      decide
    rw [htab] at hw
    have hm2 : m = 0 ∨ m = 1 := by omega
    rcases hm2 with h | h
    · subst h
      have hw0 : w = 0 := (Option.some.inj hw).symm
      subst hw0
      decide
    · subst h
      have hw1 : w = 1 := (Option.some.inj hw).symm
      subst hw1
      decide
  ⟨addRoutes_run_nextGroup exampleHost 0 [0, 3, 1, 2] (by decide) (by decide) 4 0 2 1 2
      (by decide) (by decide) (by decide) (by decide) hrun 0 0 (by decide) (by decide)
      (by decide),
   addRoutes_run_nextGroup exampleHost 0 [0, 3, 1, 2] (by decide) (by decide) 4 0 2 1 2
      (by decide) (by decide) (by decide) (by decide) hrun 1 1 (by decide) (by decide)
      (by decide)⟩

/-- Claim C8 fails as stated: in the table `[0, 1, 2]` routes 0 and 1 form a run, and the
inner route 1 stores `nextGroup = 2` instead of none; route 2, the first of the last run,
stores none instead of 3.  And when route 1 is inserted in front of the catch-all route 3, the
table is `[0, 1, 3]` and route 0, the first of the run `[0, 1]`, still stores 1 instead
of 2. -/
theorem addRoutes_internal_route_nextGroup :
    tableOf (addRoutes exampleHost 0 [0, 1, 2]) 0 = [0, 1, 2] ∧
    ((addRoutes exampleHost 0 [0, 1, 2]).routes 0).startSegment = some "a" ∧
    ((addRoutes exampleHost 0 [0, 1, 2]).routes 1).startSegment = some "a" ∧
    ((addRoutes exampleHost 0 [0, 1, 2]).routes 2).startSegment = some "c" ∧
    ((addRoutes exampleHost 0 [0, 1, 2]).routes 1).nextGroup = some 2 ∧
    ((addRoutes exampleHost 0 [0, 1, 2]).routes 2).nextGroup = none ∧
    tableOf (addRoutes exampleHost 0 [0, 3, 1]) 0 = [0, 1, 3] ∧
    ((addRoutes exampleHost 0 [0, 3, 1]).routes 3).startSegment = none ∧
    ((addRoutes exampleHost 0 [0, 3, 1]).routes 0).nextGroup = some 1 := by
  decide

/-- Claim C7, amended: let `rs` be pairwise distinct fresh routes (`nextGroup` none) with
pairwise distinct start segments, added in order to a host whose table is empty.  After each
insertion (after the first `k` routes, for every `k`), the route at index `i` stores `nextGroup = i + 1` when the route that follows it in
the table was added after it, and none otherwise: the last route, and a route followed by a
route that was added before it, store none. -/
theorem addRoutes_distinct_nextGroup (s : Http) (host : Nat) (rs : List Nat)
    (hempty : tableOf s host = []) (hdistinct : rs.Nodup)
    (hfresh : ∀ r ∈ rs, (s.routes r).nextGroup = none)
    (hseg : ∀ a ∈ rs, ∀ b ∈ rs,
      (s.routes a).startSegment = (s.routes b).startSegment → a = b) (k i x : Nat)
    (hx : (tableOf (addRoutes s host (rs.take k)) host)[i]? = some x) :
    ((addRoutes s host (rs.take k)).routes x).nextGroup =
      match (tableOf (addRoutes s host (rs.take k)) host)[i + 1]? with
      | some z => if rs.indexOf x < rs.indexOf z then some (i + 1) else none
      | none => none := by
  have hstate := addRoutes_state host (rs.take k) s
  have hsub : ∀ r ∈ rs.take k, r ∈ rs := fun r hr => List.mem_of_mem_take hr
  have hinv := foldl_addStep_grouped (fun x => rs.indexOf x) host (rs.take k) [] s.routes
    List.nodup_nil (fun a b x y z _ hx => by simp at hx)
    (pairwise_indexOf_take rs hdistinct k) (fun r _ => ⟨by simp, by simp⟩)
  have hinv2 := foldl_addStep_setBeforeNewer (fun x => rs.indexOf x) host (rs.take k) []
    s.routes List.nodup_nil (fun i x hx => by simp at hx)
    (pairwise_indexOf_take rs hdistinct k) (fun r _ => ⟨by simp, by simp⟩)
    (fun r hr => hfresh r (hsub r hr))
    (fun x hx y hy => hseg x (hsub x (by simpa using hx)) y (hsub y (by simpa using hy)))
  have hsegs := foldl_addStep_startSegment host (rs.take k) [] s.routes
  rw [hempty] at hstate
  rw [← hstate] at hinv hinv2 hsegs
  dsimp only at hinv hinv2 hsegs
  obtain ⟨hnd, hmem, hgrouped⟩ := hinv
  cases hz : (tableOf (addRoutes s host (rs.take k)) host)[i + 1]? with
  | none =>
    dsimp only
    by_contra hne
    obtain ⟨z, hz2, _⟩ := hinv2 i x hx hne
    rw [hz] at hz2
    exact absurd hz2 (by simp)
  | some z =>
    dsimp only
    by_cases hlater : rs.indexOf x < rs.indexOf z
    · rw [if_pos hlater]
      have hxz : x ≠ z := by
        intro e
        rw [e] at hx
        have := getElem?_inj_of_nodup hnd hx hz
        omega
      have hxin : x ∈ rs := by
        rcases hmem x (List.getElem?_mem hx) with h | h
        · simp at h
        · exact hsub x h
      have hzin : z ∈ rs := by
        rcases hmem z (List.getElem?_mem hz) with h | h
        · simp at h
        · exact hsub z h
      refine hgrouped i (i + 1) x x z (by omega) hx (by simpa using hx) hz hlater ?_ ?_
      · rw [hsegs, hsegs]
        exact fun e => hxz (hseg x hxin z hzin e.symm)
      · intro m hm1 hm2 w hw
        have hmi : m = i := by omega
        rw [hmi, hx] at hw
        rw [Option.some.inj hw]
    · rw [if_neg hlater]
      by_contra hne
      obtain ⟨z2, hz2, hlt⟩ := hinv2 i x hx hne
      rw [hz] at hz2
      rw [Option.some.inj hz2] at hlater
      exact hlater hlt

/-- Claim C7, amended, at a concrete sequence whose second route is the catch-all route 3: the
table ends as `[0, 2, 5, 3]`; route 2 is followed by the newer route 5, route 5 by the older
route 3, and route 3 is last. -/
theorem addRoutes_distinct_nextGroup_witness :
    (((addRoutes exampleHost 0 ([0, 3, 2, 5].take 4)).routes 2).nextGroup =
      match (tableOf (addRoutes exampleHost 0 ([0, 3, 2, 5].take 4)) 0)[1 + 1]? with
      | some z => if [0, 3, 2, 5].indexOf 2 < [0, 3, 2, 5].indexOf z then some (1 + 1) else none
      | none => none) ∧
    (((addRoutes exampleHost 0 ([0, 3, 2, 5].take 4)).routes 5).nextGroup =
      match (tableOf (addRoutes exampleHost 0 ([0, 3, 2, 5].take 4)) 0)[2 + 1]? with
      | some z => if [0, 3, 2, 5].indexOf 5 < [0, 3, 2, 5].indexOf z then some (2 + 1) else none
      | none => none) ∧
    (((addRoutes exampleHost 0 ([0, 3, 2, 5].take 4)).routes 3).nextGroup =
      match (tableOf (addRoutes exampleHost 0 ([0, 3, 2, 5].take 4)) 0)[3 + 1]? with
      | some z => if [0, 3, 2, 5].indexOf 3 < [0, 3, 2, 5].indexOf z then some (3 + 1) else none
      | none => none) :=
  ⟨addRoutes_distinct_nextGroup exampleHost 0 [0, 3, 2, 5] (by decide) (by decide) (by decide)
      (by decide) 4 1 2 (by decide),
   addRoutes_distinct_nextGroup exampleHost 0 [0, 3, 2, 5] (by decide) (by decide) (by decide)
      (by decide) 4 2 5 (by decide),
   addRoutes_distinct_nextGroup exampleHost 0 [0, 3, 2, 5] (by decide) (by decide) (by decide)
      (by decide) 4 3 3 (by decide)⟩

/-- Claim C7 fails as stated: after the first insertion the only route stores none, not 1,
the index one past its run; after the second insertion route 0 stores 1 and the last route 2
stores none, not 2. -/
theorem addRoutes_last_route_nextGroup :
    tableOf (addRoutes exampleHost 0 [0]) 0 = [0] ∧
    ((addRoutes exampleHost 0 [0]).routes 0).nextGroup = none ∧
    tableOf (addRoutes exampleHost 0 [0, 2]) 0 = [0, 2] ∧
    ((addRoutes exampleHost 0 [0, 2]).routes 0).nextGroup = some 1 ∧
    ((addRoutes exampleHost 0 [0, 2]).routes 2).nextGroup = none := by
  decide


/-! ## Setting a streaming rule -/

theorem find_set_self (table : List MprKey) (key : String) (ptr : Option String)
    (enable : Bool) :
    (setKeyType (mprAddKey table key ptr) key enable).find? (fun kp => kp.key == key) =
      some { key := key, data := ptr, type := enable } := by
  induction table with
  | nil => simp [mprAddKey, setKeyType]
  | cons kp rest ih =>
    by_cases hk : kp.key = key
    · have e1 : mprAddKey (kp :: rest) key ptr = { kp with data := ptr } :: rest := by
        simp [mprAddKey, hk]
      rw [e1]
      simp [setKeyType, hk]
    · have e1 : mprAddKey (kp :: rest) key ptr = kp :: mprAddKey rest key ptr := by
        simp [mprAddKey, hk]
      have e2 : setKeyType (kp :: mprAddKey rest key ptr) key enable =
          kp :: setKeyType (mprAddKey rest key ptr) key enable := by
        simp [setKeyType, hk]
      rw [e1, e2, find_cons_of_key_ne kp _ key hk, ih]

/-- Claim C11: for a mime string `m` without `;`, whatever the table held before, after
`httpSetStreaming(host, m, pre, e)` the call `httpGetStreaming(host, m, u)` returns `e` when
there is no prefix, `e` when the URI starts with the prefix, and true when the URI does not
start with the prefix (or is NULL). -/
theorem httpSetStreaming_then_get (s : Http) (host : Nat) (m : String) (pre : Option String)
    (e : Bool) (u : Option String) (hm : ';' ∉ m.data) :
    httpGetStreaming (httpSetStreaming s host m pre e) host m u =
      match pre with
      | none => e
      | some p =>
        match u with
        | none => true
        | some v => if p.data <+: v.data then e else true := by
  unfold httpGetStreaming
  rw [stripParams_of_no_params m hm, httpSetStreaming_streamsOf s host m pre e host rfl]
  simp only [mprLookupKeyEntry]
  rw [find_set_self]
  cases pre with
  | none => simp
  | some p =>
    cases u with
    | none => simp [sstarts]
    | some v =>
      simp only [sstarts, List.isPrefixOf_iff_prefix]
      simp

/-- Claim C11 at the rule `text/event-stream` under `/live` with streaming disabled: false for
the URI `/live`, true for the URI `/other`. -/
theorem httpSetStreaming_then_get_witness :
    httpGetStreaming (httpSetStreaming exampleHost 0 "text/event-stream" (some "/live") false) 0
        "text/event-stream" (some "/live") = false ∧
    httpGetStreaming (httpSetStreaming exampleHost 0 "text/event-stream" (some "/live") false) 0
        "text/event-stream" (some "/other") = true :=
  ⟨(httpSetStreaming_then_get exampleHost 0 "text/event-stream" (some "/live") false
      (some "/live") (by decide)).trans (by decide),
   (httpSetStreaming_then_get exampleHost 0 "text/event-stream" (some "/live") false
      (some "/other") (by decide)).trans (by decide)⟩

theorem httpAddHost_streamsOf (s : Http) (host h : Nat) :
    streamsOf (httpAddHost s host) h = streamsOf s h := rfl

theorem httpCreateHost_streamsOf (s : Http) :
    streamsOf (httpCreateHost s).1 (httpCreateHost s).2 =
      [{ key := "application/x-www-form-urlencoded", data := none, type := false },
       { key := "application/json", data := none, type := false }] := by
  have hbuild : ∀ (s1 : Http) (host : Nat), streamsOf s1 host = [] →
      streamsOf (httpAddHost (httpSetStreaming
        (httpSetStreaming s1 host "application/x-www-form-urlencoded" none false) host
        "application/json" none false) host) host =
      [{ key := "application/x-www-form-urlencoded", data := none, type := false },
       { key := "application/json", data := none, type := false }] := by
    intro s1 host h0
    rw [httpAddHost_streamsOf, httpSetStreaming_streamsOf _ host _ _ _ host rfl,
      httpSetStreaming_streamsOf _ host _ _ _ host rfl, h0]
    decide
  apply hbuild
  unfold streamsOf
  dsimp only
  rw [Function.update_same]
  dsimp only
  rw [Function.update_same]

/-- Claim C12, amended: on the host that `httpCreateHost` returns, the two rules set at creation
carry no prefix and the enable value 0, so `httpGetStreaming` returns false for
`application/x-www-form-urlencoded` and for `application/json`, for every URI. -/
theorem httpCreateHost_streaming (s : Http) (uri : Option String) :
    httpGetStreaming (httpCreateHost s).1 (httpCreateHost s).2
        "application/x-www-form-urlencoded" uri = false ∧
    httpGetStreaming (httpCreateHost s).1 (httpCreateHost s).2 "application/json" uri = false := by
  have htable := httpCreateHost_streamsOf s
  have hk1 : stripParams "application/x-www-form-urlencoded" =
      some "application/x-www-form-urlencoded" := by decide
  have hk2 : stripParams "application/json" = some "application/json" := by decide
  have hf1 : mprLookupKeyEntry
      [{ key := "application/x-www-form-urlencoded", data := none, type := false },
       { key := "application/json", data := none, type := false }]
      (some "application/x-www-form-urlencoded") =
      some { key := "application/x-www-form-urlencoded", data := none, type := false } := by
    decide
  have hf2 : mprLookupKeyEntry
      [{ key := "application/x-www-form-urlencoded", data := none, type := false },
       { key := "application/json", data := none, type := false }]
      (some "application/json") =
      some { key := "application/json", data := none, type := false } := by
    decide
  unfold httpGetStreaming
  rw [htable, hk1, hk2, hf1, hf2]
  simp

/-- Claim C12 fails as stated: on a host made by `httpCreateHost`, `httpGetStreaming` returns
false, not true, for both mime types. -/
theorem httpCreateHost_streaming_disabled :
    httpGetStreaming (httpCreateHost (emptyHttp exampleRoutes)).1
      (httpCreateHost (emptyHttp exampleRoutes)).2 "application/json" (some "/api") = false ∧
    httpGetStreaming (httpCreateHost (emptyHttp exampleRoutes)).1
      (httpCreateHost (emptyHttp exampleRoutes)).2 "application/x-www-form-urlencoded"
      (some "/form") = false := by
  decide


theorem stok_no_delim (str k : String) (h : stok str ';' = some k) : ';' ∉ k.data := by
  unfold stok at h
  split at h
  · exact absurd h (by simp)
  · rename_i c cs _
    have hk : k = String.mk ((c :: cs).takeWhile (fun x => x != ';')) :=
      (Option.some.inj h).symm
    rw [hk]
    intro hmem
    have := List.mem_takeWhile_imp hmem
    simp at this

theorem stripParams_no_delim (mime k : String) (h : stripParams mime = some k) :
    ';' ∉ k.data := by
  unfold stripParams at h
  by_cases hc : schr mime ';' = true
  · rw [if_pos hc] at h
    exact stok_no_delim mime k h
  · rw [if_neg hc] at h
    rw [← Option.some.inj h]
    intro hmem
    apply hc
    unfold schr
    simpa using hmem

/-- Claim C13, amended: `httpSetStreaming` stores the rule under the mime string as it is given,
while `httpGetStreaming` looks up the string without its parameters.  So after
`httpSetStreaming(host, key, pre, e)` with a `key` that holds a `;` the table has an entry whose
key is `key`, and every result of `httpGetStreaming` on the host is what it was before the
call. -/
theorem httpSetStreaming_key_with_params (s : Http) (host : Nat) (key : String)
    (pre : Option String) (e : Bool) (hkey : ';' ∈ key.data) :
    (∃ kp ∈ streamsOf (httpSetStreaming s host key pre e) host, kp.key = key) ∧
    ∀ (m : String) (u : Option String),
      httpGetStreaming (httpSetStreaming s host key pre e) host m u =
        httpGetStreaming s host m u := by
  constructor
  · rw [httpSetStreaming_streamsOf s host key pre e host rfl]
    exact ⟨_, List.mem_of_find?_eq_some (find_set_self (streamsOf s host) key pre e), rfl⟩
  · intro m u
    unfold httpGetStreaming
    rw [httpSetStreaming_streamsOf s host key pre e host rfl]
    cases hk : stripParams m with
    | none => rfl
    | some k =>
      have hne : k ≠ key := fun h => stripParams_no_delim m k hk (h ▸ hkey)
      simp only [mprLookupKeyEntry]
      rw [find_setKeyType_ne _ _ _ _ hne, find_mprAddKey_ne _ _ _ _ hne]

/-- Claim C13, amended, at the key `text/plain;charset=utf-8`: the rule is stored under that key
and the answer for `text/plain` stays what it was. -/
theorem httpSetStreaming_key_with_params_witness :
    (∃ kp ∈ streamsOf
        (httpSetStreaming exampleHost 0 ("text/plain" ++ ";" ++ "charset=utf-8") none false) 0,
      kp.key = "text/plain" ++ ";" ++ "charset=utf-8") ∧
    httpGetStreaming
        (httpSetStreaming exampleHost 0 ("text/plain" ++ ";" ++ "charset=utf-8") none false) 0
        "text/plain" (some "/") =
      httpGetStreaming exampleHost 0 "text/plain" (some "/") :=
  ⟨(httpSetStreaming_key_with_params exampleHost 0 ("text/plain" ++ ";" ++ "charset=utf-8")
      none false (by decide)).1,
   (httpSetStreaming_key_with_params exampleHost 0 ("text/plain" ++ ";" ++ "charset=utf-8")
      none false (by decide)).2 "text/plain" (some "/")⟩

/-- Claim C13 fails as stated: a rule set under `text/plain;charset=utf-8` leaves the answer
for `text/plain` at true, a rule set under `text/plain` makes it false; and the table of the
first holds a key with a `;`. -/
theorem httpSetStreaming_keeps_params :
    ';' ∉ ("text/plain" : String).data ∧
    httpGetStreaming
        (httpSetStreaming exampleHost 0 ("text/plain" ++ ";" ++ "charset=utf-8") none false) 0
        "text/plain" (some "/") = true ∧
    httpGetStreaming (httpSetStreaming exampleHost 0 "text/plain" none false) 0
        "text/plain" (some "/") = false ∧
    (streamsOf
        (httpSetStreaming exampleHost 0 ("text/plain" ++ ";" ++ "charset=utf-8") none false)
        0).any (fun kp => kp.key.data.contains ';') = true := by
  decide

/-! ## Route lookup -/

theorem lookupByName_some_iff (rt : Nat → HttpRoute) (name : Option String) :
    ∀ (items : List Nat) (r : Nat),
      lookupByName rt items name = some r ↔ isFirst (fun q => (rt q).name = name) items r := by
  intro items
  induction items with
  | nil =>
    intro r
    simp [lookupByName, isFirst]
  | cons a rest ih =>
    intro r
    simp only [lookupByName, smatch, beq_iff_eq]
    by_cases ha : (rt a).name = name
    · rw [if_pos ha]
      constructor
      · intro h
        rw [← Option.some.inj h]
        exact ⟨0, by simp, ha, fun j hj => by omega⟩
      · rintro ⟨i, hi, _, hfirst⟩
        cases i with
        | zero => simpa using hi
        | succ i => exact absurd ha (hfirst 0 (by omega) a (by simp))
    · rw [if_neg ha, ih r]
      constructor
      · rintro ⟨i, hi, hp, hfirst⟩
        refine ⟨i + 1, by simpa using hi, hp, fun j hj q hq => ?_⟩
        cases j with
        | zero =>
          have : a = q := by simpa using hq
          rw [← this]; exact ha
        | succ j => exact hfirst j (by omega) q (by simpa using hq)
      · rintro ⟨i, hi, hp, hfirst⟩
        cases i with
        | zero =>
          have : a = r := by simpa using hi
          rw [this] at ha
          exact absurd hp ha
        | succ i =>
          exact ⟨i, by simpa using hi, hp,
            fun j hj q hq => hfirst (j + 1) (by omega) q (by simpa using hq)⟩

theorem lookupByName_none_iff (rt : Nat → HttpRoute) (name : Option String) :
    ∀ (items : List Nat),
      lookupByName rt items name = none ↔ ∀ q ∈ items, (rt q).name ≠ name := by
  intro items
  induction items with
  | nil => simp [lookupByName]
  | cons a rest ih =>
    simp only [lookupByName, smatch, beq_iff_eq]
    by_cases ha : (rt a).name = name
    · rw [if_pos ha]
      simp [ha]
    · rw [if_neg ha, ih]
      simp [ha]

theorem lookupByPattern_some_iff (rt : Nat → HttpRoute) (pattern : String) :
    ∀ (items : List Nat) (r : Nat),
      lookupByPattern rt items (some pattern) = some r ↔
        isFirst (fun q => (rt q).pattern = pattern) items r := by
  intro items
  induction items with
  | nil =>
    intro r
    simp [lookupByPattern, isFirst]
  | cons a rest ih =>
    intro r
    simp only [lookupByPattern, smatch, beq_iff_eq, Option.some.injEq]
    by_cases ha : (rt a).pattern = pattern
    · rw [if_pos ha]
      constructor
      · intro h
        rw [← Option.some.inj h]
        exact ⟨0, by simp, ha, fun j hj => by omega⟩
      · rintro ⟨i, hi, _, hfirst⟩
        cases i with
        | zero => simpa using hi
        | succ i => exact absurd ha (hfirst 0 (by omega) a (by simp))
    · rw [if_neg ha, ih r]
      constructor
      · rintro ⟨i, hi, hp, hfirst⟩
        refine ⟨i + 1, by simpa using hi, hp, fun j hj q hq => ?_⟩
        cases j with
        | zero =>
          have : a = q := by simpa using hq
          rw [← this]; exact ha
        | succ j => exact hfirst j (by omega) q (by simpa using hq)
      · rintro ⟨i, hi, hp, hfirst⟩
        cases i with
        | zero =>
          have : a = r := by simpa using hi
          rw [this] at ha
          exact absurd hp ha
        | succ i =>
          exact ⟨i, by simpa using hi, hp,
            fun j hj q hq => hfirst (j + 1) (by omega) q (by simpa using hq)⟩

theorem exists_isFirst (p : Nat → Prop) :
    ∀ (items : List Nat), (∃ r ∈ items, p r) → ∃ r, isFirst p items r := by
  intro items
  induction items with
  | nil => rintro ⟨r, hr, _⟩; simp at hr
  | cons a rest ih =>
    rintro ⟨r, hr, hp⟩
    by_cases ha : p a
    · exact ⟨a, 0, by simp, ha, fun j hj => by omega⟩
    · have hrest : ∃ r ∈ rest, p r := by
        rcases List.mem_cons.mp hr with h | h
        · rw [h] at hp; exact absurd hp ha
        · exact ⟨r, h, hp⟩
      obtain ⟨r0, i, hi, hp0, hfirst⟩ := ih hrest
      refine ⟨r0, i + 1, by simpa using hi, hp0, fun j hj q hq => ?_⟩
      cases j with
      | zero =>
        have : a = q := by simpa using hq
        rw [← this]; exact ha
      | succ j => exact hfirst j (by omega) q (by simpa using hq)


theorem httpLookupRoute_host (s : Http) (host : Nat) (name : Option String) :
    httpLookupRoute s (some host) name =
      lookupByName s.routes (tableOf s host) (some (normalizedName name)) := by
  unfold httpLookupRoute normalizedName
  dsimp only
  cases name with
  | none => simp
  | some n =>
    by_cases hn : n = ""
    · simp [hn]
    · simp [hn]

/-- Claim C14: `httpLookupRoute(host, name)` returns the first route of the host's table, in
table order, whose name is the normalized name (an empty or unset name stands for `default`),
and the NULL route exactly when no route of the table has that name.  With a NULL host it does
the same lookup in the default host, or returns the NULL route when there is no default host.
The lookups of the empty name and of `default` agree for every host, set or unset. -/
theorem httpLookupRoute_first (s : Http) (host : Nat) (name : Option String) :
    (∀ r, httpLookupRoute s (some host) name = some r ↔
      isFirst (fun q => (s.routes q).name = some (normalizedName name)) (tableOf s host) r) ∧
    (httpLookupRoute s (some host) name = none ↔
      ∀ q ∈ tableOf s host, (s.routes q).name ≠ some (normalizedName name)) ∧
    (httpLookupRoute s none name =
      match s.defaultHost with
      | some d => httpLookupRoute s (some d) name
      | none => none) ∧
    (∀ h : Option Nat, httpLookupRoute s h (some "") = httpLookupRoute s h (some "default")) ∧
    (∀ h : Option Nat, httpLookupRoute s h none = httpLookupRoute s h (some "default")) := by
  refine ⟨fun r => ?_, ?_, ?_, ?_, ?_⟩
  · rw [httpLookupRoute_host]
    exact lookupByName_some_iff s.routes _ _ r
  · rw [httpLookupRoute_host]
    exact lookupByName_none_iff s.routes _ _
  · unfold httpLookupRoute httpGetDefaultHost
    dsimp only
    cases s.defaultHost <;> rfl
  · intro h
    unfold httpLookupRoute
    simp
  · intro h
    unfold httpLookupRoute
    simp

theorem httpLookupRouteByPattern_host (s : Http) (host : Nat) (pattern : String)
    (h : pattern = "/" ∨ pattern = "^/" ∨ pattern = "^/$" ∨ pattern = "") :
    httpLookupRouteByPattern s (some host) (some pattern) =
      lookupByPattern s.routes (tableOf s host) (some "") := by
  unfold httpLookupRouteByPattern
  rcases h with h | h | h | h <;> subst h <;> simp [smatch]

/-- Claim C15: when the table of the host holds a route whose stored pattern is empty, the
lookups of the patterns `/`, `^/`, `^/$` and of the empty pattern all return the same route,
the first route of the table, in table order, whose stored pattern is empty. -/
theorem httpLookupRouteByPattern_root (s : Http) (host : Nat)
    (h : ∃ r ∈ tableOf s host, (s.routes r).pattern = "") :
    ∃ r0, isFirst (fun q => (s.routes q).pattern = "") (tableOf s host) r0 ∧
      httpLookupRouteByPattern s (some host) (some "/") = some r0 ∧
      httpLookupRouteByPattern s (some host) (some "^/") = some r0 ∧
      httpLookupRouteByPattern s (some host) (some "^/$") = some r0 ∧
      httpLookupRouteByPattern s (some host) (some "") = some r0 := by
  obtain ⟨r0, hfirst⟩ := exists_isFirst (fun q => (s.routes q).pattern = "") _ h
  have hl := (lookupByPattern_some_iff s.routes "" (tableOf s host) r0).mpr hfirst
  refine ⟨r0, hfirst, ?_, ?_, ?_, ?_⟩
  · rw [httpLookupRouteByPattern_host s host "/" (by simp), hl]
  · rw [httpLookupRouteByPattern_host s host "^/" (by simp), hl]
  · rw [httpLookupRouteByPattern_host s host "^/$" (by simp), hl]
  · rw [httpLookupRouteByPattern_host s host "" (by simp), hl]

/-- Claim C15 at the table `[0, 3]`, whose route 3 has an empty pattern. -/
theorem httpLookupRouteByPattern_root_witness :
    ∃ r0, isFirst (fun q => (exampleParent.routes q).pattern = "") (tableOf exampleParent 0) r0 ∧
      httpLookupRouteByPattern exampleParent (some 0) (some "/") = some r0 ∧
      httpLookupRouteByPattern exampleParent (some 0) (some "^/") = some r0 ∧
      httpLookupRouteByPattern exampleParent (some 0) (some "^/$") = some r0 ∧
      httpLookupRouteByPattern exampleParent (some 0) (some "") = some r0 :=
  httpLookupRouteByPattern_root exampleParent 0 (by decide)


/-! ## The registry of actions -/

theorem find_mprAddActionKey_self (table : List (String × Nat)) (key : String) (ptr : Nat) :
    ((mprAddActionKey table key ptr).find? (fun kp => kp.1 == key)).map (fun kp => kp.2) =
      some ptr := by
  induction table with
  | nil => simp [mprAddActionKey]
  | cons kp rest ih =>
    by_cases hk : kp.1 = key
    · simp [mprAddActionKey, hk]
    · simp [mprAddActionKey, hk, List.find?_cons]
      simpa using ih

theorem find_mprAddActionKey_ne (table : List (String × Nat)) (key k : String) (ptr : Nat)
    (h : k ≠ key) :
    (mprAddActionKey table key ptr).find? (fun kp => kp.1 == k) =
      table.find? (fun kp => kp.1 == k) := by
  induction table with
  | nil => simp [mprAddActionKey, List.find?_cons, Ne.symm h]
  | cons kp rest ih =>
    by_cases hk : kp.1 = key
    · have hkk : kp.1 ≠ k := by rw [hk]; exact Ne.symm h
      simp [mprAddActionKey, hk, List.find?_cons, Ne.symm h]
    · simp [mprAddActionKey, hk, List.find?_cons, ih]


theorem lastDefined_cons (d : String × Nat) (rest : List (String × Nat)) (path : String) :
    lastDefined (d :: rest) path =
      match lastDefined rest path with
      | some f => some f
      | none => if d.1 = path then some d.2 else none := by
  unfold lastDefined
  by_cases hd : d.1 = path
  · simp only [List.filter_cons, hd, decide_True, if_true]
    cases hl : (rest.filter (fun d => decide (d.1 = path))).getLast? with
    | none =>
      rw [List.getLast?_eq_none_iff] at hl
      simp [hl]
    | some x =>
      obtain ⟨ys, hys⟩ := List.getLast?_eq_some_iff.mp hl
      rw [hys, ← List.cons_append, List.getLast?_concat]
      simp
  · have hf : (d :: rest).filter (fun d => decide (d.1 = path)) =
        rest.filter (fun d => decide (d.1 = path)) := by
      simp [List.filter_cons, hd]
    rw [hf, if_neg hd]
    cases Option.map (fun d => d.2) (rest.filter (fun d => decide (d.1 = path))).getLast? <;>
      rfl

theorem lastDefined_none_iff (defs : List (String × Nat)) (path : String) :
    lastDefined defs path = none ↔ ∀ d ∈ defs, d.1 ≠ path := by
  unfold lastDefined
  rw [Option.map_eq_none', List.getLast?_eq_none_iff, List.filter_eq_nil_iff]
  simp

theorem lastDefined_some_iff (defs : List (String × Nat)) (path : String) (f : Nat) :
    lastDefined defs path = some f ↔
      ∃ front back, defs = front ++ (path, f) :: back ∧ ∀ d ∈ back, d.1 ≠ path := by
  constructor
  · induction defs with
    | nil => intro h; simp [lastDefined] at h
    | cons d rest ih =>
      intro h
      rw [lastDefined_cons] at h
      cases hl : lastDefined rest path with
      | some g =>
        rw [hl] at h
        obtain ⟨front, back, hsplit, hback⟩ := ih (by rw [hl]; exact h)
        exact ⟨d :: front, back, by rw [hsplit]; rfl, hback⟩
      | none =>
        rw [hl] at h
        dsimp only at h
        by_cases hd : d.1 = path
        · rw [if_pos hd] at h
          refine ⟨[], rest, ?_, (lastDefined_none_iff rest path).mp hl⟩
          have hd2 : d.2 = f := Option.some.inj h
          rw [← hd, ← hd2]
          rfl
        · rw [if_neg hd] at h
          exact absurd h (by simp)
  · rintro ⟨front, back, hsplit, hback⟩
    have hb : back.filter (fun d => decide (d.1 = path)) = [] := by
      rw [List.filter_eq_nil_iff]
      intro d hd
      simpa using hback d hd
    unfold lastDefined
    rw [hsplit, List.filter_append, List.filter_cons]
    simp only [decide_True, if_true, hb]
    rw [List.getLast?_concat]
    rfl

theorem defineActions_stageData (defs : List (String × Nat)) :
    ∀ (st : ActionHandler) (table : List (String × Nat)), st.stageData = some table →
      ∃ table2, (defineActions st defs).stageData = some table2 := by
  induction defs with
  | nil => intro st table h; exact ⟨table, h⟩
  | cons d rest ih =>
    intro st table h
    have : (httpDefineAction st d.1 d.2).stageData =
        some (mprAddActionKey table d.1 d.2) := by
      unfold httpDefineAction
      rw [h]
    exact ih _ _ this

theorem httpDefineAction_lookup (st : ActionHandler) (table : List (String × Nat))
    (h : st.stageData = some table) (name path : String) (action : Nat) :
    mprLookupKey (httpDefineAction st name action).stageData (some path) =
      if name = path then some action else mprLookupKey st.stageData (some path) := by
  unfold httpDefineAction
  rw [h]
  unfold mprLookupKey
  dsimp only
  by_cases hn : name = path
  · rw [if_pos hn, ← hn]
    exact find_mprAddActionKey_self table name action
  · rw [if_neg hn, find_mprAddActionKey_ne table name path action (Ne.symm hn)]

theorem defineActions_lookup (defs : List (String × Nat)) (path : String) :
    ∀ (st : ActionHandler) (table : List (String × Nat)), st.stageData = some table →
      mprLookupKey (defineActions st defs).stageData (some path) =
        match lastDefined defs path with
        | some f => some f
        | none => mprLookupKey st.stageData (some path) := by
  induction defs with
  | nil => intro st table _; rfl
  | cons d rest ih =>
    intro st table h
    have hst : (httpDefineAction st d.1 d.2).stageData =
        some (mprAddActionKey table d.1 d.2) := by
      unfold httpDefineAction
      rw [h]
    have hrec := ih (httpDefineAction st d.1 d.2) _ hst
    have hunfold : defineActions st (d :: rest) =
        defineActions (httpDefineAction st d.1 d.2) rest := rfl
    rw [hunfold, hrec, lastDefined_cons, httpDefineAction_lookup st table h]
    cases lastDefined rest path with
    | some f => rfl
    | none =>
      dsimp only
      by_cases hd : d.1 = path
      · rw [if_pos hd, if_pos hd]
      · rw [if_neg hd, if_neg hd]


/-- Claim C16: let the registry be built by a sequence `defs` of `httpDefineAction` calls after
`httpOpenActionHandler`, and let the path of the request be `p`.  When no action was defined
under exactly `p`, `startAction` signals the not-found error (404) on the connection, calls no
function and leaves the registry as it was.  When an action was defined under `p`, the function
`f` of the last such definition exists, and `startAction` calls `f` with the connection, once,
calls no other function, signals no error and leaves the registry as it was. -/
theorem startAction_dispatch (defs : List (String × Nat)) (conn : HttpConn) (p : String)
    (hpath : conn.pathInfo = some p) :
    ((∀ d ∈ defs, d.1 ≠ p) →
      startAction (defineActions httpOpenActionHandler defs) conn =
        (defineActions httpOpenActionHandler defs,
          { pathInfo := conn.pathInfo, error := some 404, calls := conn.calls })) ∧
    ((∃ d ∈ defs, d.1 = p) →
      ∃ f front back, defs = front ++ (p, f) :: back ∧ (∀ d ∈ back, d.1 ≠ p) ∧
        startAction (defineActions httpOpenActionHandler defs) conn =
          (defineActions httpOpenActionHandler defs,
            { pathInfo := conn.pathInfo, error := conn.error, calls := conn.calls ++ [f] })) := by
  have hlook := defineActions_lookup defs p httpOpenActionHandler [] rfl
  constructor
  · intro hnone
    rw [(lastDefined_none_iff defs p).mpr hnone] at hlook
    have hlook2 : mprLookupKey (defineActions httpOpenActionHandler defs).stageData
        conn.pathInfo = none := by
      rw [hpath, hlook]
      rfl
    unfold startAction
    rw [hlook2]
    rfl
  · rintro ⟨d, hd, hdp⟩
    cases hl : lastDefined defs p with
    | none => exact absurd hdp ((lastDefined_none_iff defs p).mp hl d hd)
    | some f =>
      obtain ⟨front, back, hsplit, hback⟩ := (lastDefined_some_iff defs p f).mp hl
      refine ⟨f, front, back, hsplit, hback, ?_⟩
      rw [hl] at hlook
      have hlook2 : mprLookupKey (defineActions httpOpenActionHandler defs).stageData
          conn.pathInfo = some f := by
        rw [hpath, hlook]
      unfold startAction
      rw [hlook2]

/-- Claim C16 at a concrete registry: `/a` is defined twice, and a request for `/a` calls the
function of the second definition; a request for `/c` gets the not-found error. -/
theorem startAction_dispatch_witness :
    (((∀ d ∈ [("/a", 1), ("/b", 2), ("/a", 3)], d.1 ≠ "/a") →
      startAction (defineActions httpOpenActionHandler [("/a", 1), ("/b", 2), ("/a", 3)])
          { pathInfo := some "/a", error := none, calls := [] } =
        (defineActions httpOpenActionHandler [("/a", 1), ("/b", 2), ("/a", 3)],
          { pathInfo := some "/a", error := some 404, calls := [] })) ∧
    ((∃ d ∈ [("/a", 1), ("/b", 2), ("/a", 3)], d.1 = "/a") →
      ∃ f front back, [("/a", 1), ("/b", 2), ("/a", 3)] = front ++ ("/a", f) :: back ∧
        (∀ d ∈ back, d.1 ≠ "/a") ∧
        startAction (defineActions httpOpenActionHandler [("/a", 1), ("/b", 2), ("/a", 3)])
            { pathInfo := some "/a", error := none, calls := [] } =
          (defineActions httpOpenActionHandler [("/a", 1), ("/b", 2), ("/a", 3)],
            { pathInfo := some "/a", error := none, calls := [] ++ [f] }))) ∧
    startAction (defineActions httpOpenActionHandler [("/a", 1), ("/b", 2), ("/a", 3)])
        { pathInfo := some "/a", error := none, calls := [] } =
      (defineActions httpOpenActionHandler [("/a", 1), ("/b", 2), ("/a", 3)],
        { pathInfo := some "/a", error := none, calls := [3] }) ∧
    startAction (defineActions httpOpenActionHandler [("/a", 1), ("/b", 2), ("/a", 3)])
        { pathInfo := some "/c", error := none, calls := [] } =
      (defineActions httpOpenActionHandler [("/a", 1), ("/b", 2), ("/a", 3)],
        { pathInfo := some "/c", error := some 404, calls := [] }) :=
  ⟨startAction_dispatch [("/a", 1), ("/b", 2), ("/a", 3)]
      { pathInfo := some "/a", error := none, calls := [] } "/a" rfl,
   by decide, by decide⟩


/-! ## Adding a route twice -/

theorem cloneRoutesOnWrite_own (s : Http) (host : Nat)
    (hown : ∀ p, (s.hosts host).parent = some p → (s.hosts host).routes ≠ (s.hosts p).routes) :
    cloneRoutesOnWrite s host = s := by
  unfold cloneRoutesOnWrite
  dsimp only
  cases hp : (s.hosts host).parent with
  | none => rfl
  | some p =>
    dsimp only
    rw [if_neg (hown p hp)]

theorem httpAddRoute_nextGroup_of_mem (s : Http) (host r : Nat) (hmem : r ∈ tableOf s host)
    (x : Nat) : ((httpAddRoute s host r).routes x).nextGroup = (s.routes x).nextGroup := by
  rw [httpAddRoute_routes]
  unfold addToRoutes
  have := mprLookupItem_nonneg_of_mem hmem
  rw [httpSetRouteHost_nextGroup, if_neg (by omega)]

theorem httpAddRoute_lists_of_mem (s : Http) (host r : Nat) (hmem : r ∈ tableOf s host) :
    (httpAddRoute s host r).lists = (cloneRoutesOnWrite s host).lists := by
  have hmem2 : r ∈ tableOf (cloneRoutesOnWrite s host) host := by
    rw [cloneRoutesOnWrite_tableOf]; exact hmem
  have := mprLookupItem_nonneg_of_mem hmem2
  unfold tableOf at this
  unfold httpAddRoute
  dsimp only
  rw [if_neg (by omega)]

/-- Claim C17: when the route `r` is already in the host's table, `httpAddRoute(host, r)` leaves
the table with the same routes in the same order and the same length and leaves the `nextGroup`
of every route as it was; when the host does not hold the list object of a parent, the call
also leaves the host with the same list object and every list as it was.  Hence, for every
route `r`, a second `httpAddRoute(host, r)` yields the table and the `nextGroup` values of the
first. -/
theorem httpAddRoute_idempotent (s : Http) (host r : Nat) :
    (r ∈ tableOf s host →
      tableOf (httpAddRoute s host r) host = tableOf s host ∧
      (tableOf (httpAddRoute s host r) host).length = (tableOf s host).length ∧
      (∀ x, ((httpAddRoute s host r).routes x).nextGroup = (s.routes x).nextGroup) ∧
      ((∀ p, (s.hosts host).parent = some p →
          (s.hosts host).routes ≠ (s.hosts p).routes) →
        ((httpAddRoute s host r).hosts host).routes = (s.hosts host).routes ∧
        (httpAddRoute s host r).lists = s.lists)) ∧
    tableOf (httpAddRoute (httpAddRoute s host r) host r) host =
      tableOf (httpAddRoute s host r) host ∧
    (∀ x, ((httpAddRoute (httpAddRoute s host r) host r).routes x).nextGroup =
      ((httpAddRoute s host r).routes x).nextGroup) := by
  have hfirst : ∀ (t : Http), r ∈ tableOf t host →
      tableOf (httpAddRoute t host r) host = tableOf t host := by
    intro t ht
    rw [httpAddRoute_tableOf, addToTable_of_mem _ _ _ ht]
  have hin : r ∈ tableOf (httpAddRoute s host r) host := by
    rw [httpAddRoute_tableOf]
    exact (mem_addToTable s.routes (tableOf s host) r).1
  refine ⟨fun hmem => ⟨hfirst s hmem, by rw [hfirst s hmem],
    httpAddRoute_nextGroup_of_mem s host r hmem, fun hown => ?_⟩, hfirst _ hin,
    httpAddRoute_nextGroup_of_mem _ host r hin⟩
  rw [httpAddRoute_hosts, httpAddRoute_lists_of_mem s host r hmem,
    cloneRoutesOnWrite_own s host hown]
  exact ⟨rfl, rfl⟩

/-- Claim C17 at the table `[0, 3]` of a host without a parent: route 0, already in the table,
is added again; and the new route 2 is added twice. -/
theorem httpAddRoute_idempotent_witness :
    0 ∈ tableOf exampleParent 0 ∧
    tableOf (httpAddRoute exampleParent 0 0) 0 = tableOf exampleParent 0 ∧
    (tableOf (httpAddRoute exampleParent 0 0) 0).length = (tableOf exampleParent 0).length ∧
    (∀ x, ((httpAddRoute exampleParent 0 0).routes x).nextGroup =
      (exampleParent.routes x).nextGroup) ∧
    ((httpAddRoute exampleParent 0 0).hosts 0).routes = (exampleParent.hosts 0).routes ∧
    (httpAddRoute exampleParent 0 0).lists = exampleParent.lists ∧
    tableOf (httpAddRoute (httpAddRoute exampleParent 0 2) 0 2) 0 =
      tableOf (httpAddRoute exampleParent 0 2) 0 ∧
    (∀ x, ((httpAddRoute (httpAddRoute exampleParent 0 2) 0 2).routes x).nextGroup =
      ((httpAddRoute exampleParent 0 2).routes x).nextGroup) :=
  have hpar : (exampleParent.hosts 0).parent = none := by decide
  have hown : ∀ p, (exampleParent.hosts 0).parent = some p →
      (exampleParent.hosts 0).routes ≠ (exampleParent.hosts p).routes := by
    intro p hp
    rw [hpar] at hp
    exact absurd hp (by simp)
  have h := (httpAddRoute_idempotent exampleParent 0 0).1 (by decide)
  ⟨by decide, h.1, h.2.1, h.2.2.1, (h.2.2.2 hown).1, (h.2.2.2 hown).2,
    (httpAddRoute_idempotent exampleParent 0 2).2.1,
    (httpAddRoute_idempotent exampleParent 0 2).2.2⟩

/-! ## Trace settings at the start of a host -/

theorem foldl_httpStartRoute (items : List Nat) (rt : Nat → HttpRoute) :
    items.foldl httpStartRoute rt = rt := by
  induction items with
  | nil => rfl
  | cons a rest ih => exact ih

theorem inheritTrace_parent (rt : Nat → HttpRoute) (route x : Nat) :
    (inheritTrace rt route x).parent = (rt x).parent := by
  unfold inheritTrace
  split
  · cases (rt route).parent with
    | none => rfl
    | some parent =>
      dsimp only
      cases (rt parent).trace with
      | none => rfl
      | some t =>
        dsimp only
        by_cases hx : x = route
        · subst hx; rw [Function.update_same]
        · rw [Function.update_noteq hx]
  · rfl

theorem inheritTrace_of_ne (rt : Nat → HttpRoute) (route x : Nat) (hx : x ≠ route) :
    inheritTrace rt route x = rt x := by
  unfold inheritTrace
  split
  · cases (rt route).parent with
    | none => rfl
    | some parent =>
      dsimp only
      cases (rt parent).trace with
      | none => rfl
      | some t =>
        dsimp only
        rw [Function.update_noteq hx]
  · rfl

theorem inheritTrace_keeps (rt : Nat → HttpRoute) (route x t : Nat)
    (h : (rt x).trace = some t) : (inheritTrace rt route x).trace = some t := by
  by_cases hx : x = route
  · subst hx
    unfold inheritTrace
    rw [if_neg (by rw [h]; simp)]
    exact h
  · rw [inheritTrace_of_ne rt route x hx]
    exact h

theorem inheritTrace_self (rt : Nat → HttpRoute) (route p t : Nat)
    (hnone : (rt route).trace = none) (hp : (rt route).parent = some p)
    (ht : (rt p).trace = some t) : (inheritTrace rt route route).trace = some t := by
  unfold inheritTrace
  rw [if_pos hnone, hp]
  dsimp only
  rw [ht]
  dsimp only
  rw [Function.update_same]

theorem inheritTrace_no_parent (rt : Nat → HttpRoute) (route x : Nat)
    (hp : (rt x).parent = none) : (inheritTrace rt route x).trace = (rt x).trace := by
  by_cases hx : x = route
  · subst hx
    unfold inheritTrace
    split
    · rw [hp]
    · rfl
  · rw [inheritTrace_of_ne rt route x hx]

theorem foldl_inheritTrace_parent (items : List Nat) :
    ∀ (rt : Nat → HttpRoute) (x : Nat),
      (items.foldl inheritTrace rt x).parent = (rt x).parent := by
  induction items with
  | nil => intro rt x; rfl
  | cons a rest ih =>
    intro rt x
    rw [List.foldl_cons, ih, inheritTrace_parent]

theorem foldl_inheritTrace_keeps (items : List Nat) :
    ∀ (rt : Nat → HttpRoute) (x t : Nat), (rt x).trace = some t →
      (items.foldl inheritTrace rt x).trace = some t := by
  induction items with
  | nil => intro rt x t h; exact h
  | cons a rest ih =>
    intro rt x t h
    rw [List.foldl_cons]
    exact ih _ x t (inheritTrace_keeps rt a x t h)

theorem foldl_inheritTrace_no_parent (items : List Nat) :
    ∀ (rt : Nat → HttpRoute) (x : Nat), (rt x).parent = none →
      (items.foldl inheritTrace rt x).trace = (rt x).trace := by
  induction items with
  | nil => intro rt x _; rfl
  | cons a rest ih =>
    intro rt x h
    rw [List.foldl_cons, ih _ x (by rw [inheritTrace_parent]; exact h),
      inheritTrace_no_parent rt a x h]

theorem foldl_inheritTrace_not_mem (items : List Nat) :
    ∀ (rt : Nat → HttpRoute) (x : Nat), x ∉ items →
      items.foldl inheritTrace rt x = rt x := by
  induction items with
  | nil => intro rt x _; rfl
  | cons a rest ih =>
    intro rt x h
    rw [List.foldl_cons, ih _ x (fun hm => h (List.mem_cons_of_mem _ hm)),
      inheritTrace_of_ne rt a x (fun e => h (by simp [e]))]

theorem foldl_inheritTrace_inherits (items : List Nat) :
    ∀ (rt : Nat → HttpRoute) (x p t : Nat), x ∈ items → (rt x).trace = none →
      (rt x).parent = some p → (rt p).trace = some t →
      (items.foldl inheritTrace rt x).trace = some t := by
  induction items with
  | nil => intro rt x p t h; simp at h
  | cons a rest ih =>
    intro rt x p t hmem hnone hp ht
    rw [List.foldl_cons]
    by_cases hx : x = a
    · subst hx
      exact foldl_inheritTrace_keeps rest _ x t (inheritTrace_self rt x p t hnone hp ht)
    · have hmem2 : x ∈ rest := by
        rcases List.mem_cons.mp hmem with h | h
        · exact absurd h hx
        · exact h
      refine ih _ x p t hmem2 ?_ ?_ (inheritTrace_keeps rt a p t ht)
      · rw [inheritTrace_of_ne rt a x hx]; exact hnone
      · rw [inheritTrace_parent]; exact hp

theorem foldl_inheritTrace_source (items : List Nat) :
    ∀ (rt : Nat → HttpRoute) (x : Nat),
      (items.foldl inheritTrace rt x).trace = (rt x).trace ∨
      ((rt x).trace = none ∧ ∃ p, (rt x).parent = some p ∧
        (items.foldl inheritTrace rt x).trace = (items.foldl inheritTrace rt p).trace) := by
  induction items with
  | nil => intro rt x; exact Or.inl rfl
  | cons a rest ih =>
    intro rt x
    rw [List.foldl_cons]
    have hnone_back : (inheritTrace rt a x).trace = none → (rt x).trace = none := by
      intro h
      cases hx : (rt x).trace with
      | none => rfl
      | some t =>
        rw [inheritTrace_keeps rt a x t hx] at h
        exact absurd h (by simp)
    rcases ih (inheritTrace rt a) x with h | ⟨hn, p, hp, heq⟩
    · by_cases hsame : (inheritTrace rt a x).trace = (rt x).trace
      · exact Or.inl (h.trans hsame)
      · -- the route is `a` and it has just taken the settings of its parent
        have hxa : x = a := by
          by_contra hne
          exact hsame (by rw [inheritTrace_of_ne rt a x hne])
        subst hxa
        have hcases : (rt x).trace = none ∧ ∃ p t, (rt x).parent = some p ∧
            (rt p).trace = some t := by
          unfold inheritTrace at hsame
          by_cases h1 : (rt x).trace = none
          · rw [if_pos h1] at hsame
            cases h2 : (rt x).parent with
            | none => rw [h2] at hsame; exact absurd rfl hsame
            | some p =>
              rw [h2] at hsame
              dsimp only at hsame
              cases h3 : (rt p).trace with
              | none => rw [h3] at hsame; exact absurd rfl hsame
              | some t => exact ⟨h1, p, t, rfl, h3⟩
          · rw [if_neg h1] at hsame
            exact absurd rfl hsame
        obtain ⟨h1, p, t, h2, h3⟩ := hcases
        refine Or.inr ⟨h1, p, h2, ?_⟩
        rw [h, inheritTrace_self rt x p t h1 h2 h3,
          foldl_inheritTrace_keeps rest _ p t (inheritTrace_keeps rt x p t h3)]
    · refine Or.inr ⟨hnone_back hn, p, ?_, heq⟩
      rw [inheritTrace_parent] at hp
      exact hp


theorem httpStartHost_routes (s : Http) (host : Nat) :
    (httpStartHost s host).routes = (tableOf s host).foldl inheritTrace s.routes := by
  unfold httpStartHost
  dsimp only
  rw [foldl_httpStartRoute]

/-- Claim C18, amended: for a route `x` of the host's table, `httpStartHost` sets the trace
settings of `x` to those of its parent route when `x` has none and its parent route has some,
whatever group the parent belongs to; it leaves them as they were when `x` has its own or has
no parent route; and in every case the settings of `x` after the call are what they were or,
for a route that had none, what its parent route has after the call. -/
theorem httpStartHost_trace (s : Http) (host x : Nat) (hx : x ∈ tableOf s host) :
    (∀ p t, (s.routes x).trace = none → (s.routes x).parent = some p →
      (s.routes p).trace = some t → ((httpStartHost s host).routes x).trace = some t) ∧
    (∀ t, (s.routes x).trace = some t → ((httpStartHost s host).routes x).trace = some t) ∧
    ((s.routes x).parent = none →
      ((httpStartHost s host).routes x).trace = (s.routes x).trace) ∧
    (((httpStartHost s host).routes x).trace = (s.routes x).trace ∨
      ((s.routes x).trace = none ∧ ∃ p, (s.routes x).parent = some p ∧
        ((httpStartHost s host).routes x).trace =
          ((httpStartHost s host).routes p).trace)) := by
  rw [httpStartHost_routes]
  exact ⟨fun p t h1 h2 h3 => foldl_inheritTrace_inherits _ s.routes x p t hx h1 h2 h3,
    fun t h => foldl_inheritTrace_keeps _ s.routes x t h,
    fun h => foldl_inheritTrace_no_parent _ s.routes x h,
    foldl_inheritTrace_source _ s.routes x⟩

/-- Claim C18, amended, at the trace example: route 1 takes the settings of its parent route 0,
and route 0 keeps its own. -/
theorem httpStartHost_trace_witness :
    1 ∈ tableOf traceHost 0 ∧
    ((httpStartHost traceHost 0).routes 1).trace = some 7 ∧
    0 ∈ tableOf traceHost 0 ∧
    ((httpStartHost traceHost 0).routes 0).trace = some 7 :=
  ⟨by decide,
   (httpStartHost_trace traceHost 0 1 (by decide)).1 0 7 (by decide) (by decide) (by decide),
   by decide,
   (httpStartHost_trace traceHost 0 0 (by decide)).2.1 7 (by decide)⟩

/-- Claim C18 fails as stated: in the table `[0, 1, 2]` the parent route 0 belongs to the
group of the routes with the start segment `a`, together with route 1, and stores the skip
index 2 of that group; route 1 lacks trace settings.  `httpStartHost` still gives route 1 the
trace settings of route 0: no test on groups is made. -/
theorem httpStartHost_grouped_parent :
    tableOf traceHost 0 = [0, 1, 2] ∧
    (traceHost.routes 1).parent = some 0 ∧
    (traceHost.routes 1).trace = none ∧
    (traceHost.routes 0).trace = some 7 ∧
    (traceHost.routes 0).startSegment = (traceHost.routes 1).startSegment ∧
    (traceHost.routes 0).nextGroup = some 2 ∧
    ((httpStartHost traceHost 0).routes 1).trace = some 7 := by
  decide


/-! ## The grouping update of one insertion -/

theorem httpAddRoute_state (s : Http) (host r : Nat) :
    (tableOf (httpAddRoute s host r) host, (httpAddRoute s host r).routes) =
      addStep host (tableOf s host, s.routes) r := by
  unfold addStep
  rw [httpAddRoute_tableOf, httpAddRoute_routes]

theorem insert_position (items : List Nat) (i idx r : Nat) (hi : i ≤ items.length)
    (hr : r ∉ items) (hidx : (items.take i ++ r :: items.drop i)[idx]? = some r) : idx = i := by
  rcases Nat.lt_trichotomy idx i with h | h | h
  · rw [getElem?_insert_lt items i r idx hi h] at hidx
    exact absurd (List.getElem?_mem hidx) hr
  · exact h
  · have h2 : idx = (idx - 1) + 1 := by omega
    rw [h2, getElem?_insert_gt items i r (idx - 1) hi (by omega)] at hidx
    exact absurd (List.getElem?_mem hidx) hr

/-- Claim C19: let `httpAddRoute` place the new route `r` at index `idx` of the table.  When
`idx > 0` and the start segment of the route `prev` at `idx - 1` differs from that of `r`, the
route at `idx - 1` and every earlier route of the unbroken stretch of routes with the start
segment of `prev` that ends at `idx - 1` store `nextGroup = idx` after the call, and every
other route keeps its `nextGroup`.  When `idx = 0` or the two start segments are equal, every
route keeps its `nextGroup`. -/
theorem httpAddRoute_grouping (s : Http) (host r idx : Nat) (hnew : r ∉ tableOf s host)
    (hidx : (tableOf (httpAddRoute s host r) host)[idx]? = some r) :
    (∀ prev, 0 < idx → (tableOf (httpAddRoute s host r) host)[idx - 1]? = some prev →
      (s.routes prev).startSegment ≠ (s.routes r).startSegment →
      ∀ x,
        (reached s.routes (tableOf (httpAddRoute s host r) host)
            (s.routes prev).startSegment idx x →
          ((httpAddRoute s host r).routes x).nextGroup = some idx) ∧
        (¬ reached s.routes (tableOf (httpAddRoute s host r) host)
            (s.routes prev).startSegment idx x →
          ((httpAddRoute s host r).routes x).nextGroup = (s.routes x).nextGroup)) ∧
    ((idx = 0 ∨ ∃ prev, (tableOf (httpAddRoute s host r) host)[idx - 1]? = some prev ∧
        (s.routes prev).startSegment = (s.routes r).startSegment) →
      ∀ x, ((httpAddRoute s host r).routes x).nextGroup = (s.routes x).nextGroup) := by
  have hstate := httpAddRoute_state s host r
  have htab : tableOf (httpAddRoute s host r) host =
      (addStep host (tableOf s host, s.routes) r).1 := congrArg Prod.fst hstate
  have hrt : (httpAddRoute s host r).routes =
      (addStep host (tableOf s host, s.routes) r).2 := congrArg Prod.snd hstate
  obtain ⟨h1, h2, _⟩ := insertRoute_shape s.routes (tableOf s host) r
  have hng := addStep_nextGroup host s.routes (tableOf s host) r hnew
  rw [htab, addStep_table host s.routes (tableOf s host) r hnew] at hidx ⊢
  rw [hrt]
  generalize (insertRoute s.routes (tableOf s host) r).2 = i at h1 h2 hidx hng ⊢
  have hi : idx = i := insert_position (tableOf s host) i idx r h1 hnew hidx
  subst hi
  constructor
  · intro prev hpos hprev hseg x
    rw [getElem?_insert_lt (tableOf s host) idx r (idx - 1) h1 (by omega)] at hprev
    rw [reached_insert s.routes (tableOf s host) idx r _ x h1]
    constructor
    · intro hreach
      exact (hng x).1 ⟨hpos, prev, hprev, hseg, hreach⟩
    · intro hnot
      refine (hng x).2 ?_
      rintro ⟨_, prev2, hprev2, _, hreach⟩
      rw [hprev] at hprev2
      rw [← Option.some.inj hprev2] at hreach
      exact hnot hreach
  · intro hcase x
    refine (hng x).2 ?_
    rintro ⟨hpos, prev2, hprev2, hseg2, _⟩
    rcases hcase with h0 | ⟨prev, hprev, hseg⟩
    · omega
    · rw [getElem?_insert_lt (tableOf s host) idx r (idx - 1) h1 (by omega)] at hprev
      rw [hprev] at hprev2
      rw [← Option.some.inj hprev2] at hseg2
      exact hseg2 hseg

/-- Claim C19 at the table `[0, 1, 3]`, to which route 2 is added at index 2, after routes 0
and 1 with another start segment: routes 0 and 1 store 2 afterwards, and the catch-all route
3 behind the new route keeps its `nextGroup`. -/
theorem httpAddRoute_grouping_witness :
    ((addRoutes exampleHost 0 [0, 3, 1, 2]).routes 0).nextGroup = some 2 ∧
    ((addRoutes exampleHost 0 [0, 3, 1, 2]).routes 1).nextGroup = some 2 ∧
    ((addRoutes exampleHost 0 [0, 3, 1, 2]).routes 3).nextGroup =
      ((addRoutes exampleHost 0 [0, 3, 1]).routes 3).nextGroup :=
  have h := (httpAddRoute_grouping (addRoutes exampleHost 0 [0, 3, 1]) 0 2 2 (by decide)
    (by decide)).1 1 (by decide) (by decide) (by decide)
  have htab : tableOf (httpAddRoute (addRoutes exampleHost 0 [0, 3, 1]) 0 2) 0 = [0, 1, 2, 3] :=
    by decide
  ⟨(h 0).1 ⟨0, by decide, by decide, fun m _ hm y hy => by
      rw [htab] at hy
      have hm2 : m = 0 ∨ m = 1 := by omega
      rcases hm2 with e | e
      · subst e
        rw [← Option.some.inj hy]
        decide
      · subst e
        rw [← Option.some.inj hy]
        decide⟩,
   (h 1).1 ⟨1, by decide, by decide, fun m hm1 hm y hy => by
      rw [htab] at hy
      have hm2 : m = 1 := by omega
      subst hm2
      rw [← Option.some.inj hy]
      decide⟩,
   (h 3).2 (by
      rintro ⟨k, hk, hkx, _⟩
      rw [htab] at hkx
      have hk2 : k = 0 ∨ k = 1 := by omega
      rcases hk2 with e | e
      · subst e
        exact absurd (Option.some.inj hkx) (by decide)
      · subst e
        exact absurd (Option.some.inj hkx) (by decide))⟩

/-! ## Skip pointers -/

theorem addStep_skipSound (host : Nat) (rt : Nat → HttpRoute) (items : List Nat) (r : Nat)
    (hnd : items.Nodup) (hr : r ∉ items) (hfresh : (rt r).nextGroup = none)
    (hinv : SkipSound items rt) :
    SkipSound (addStep host (items, rt) r).1 (addStep host (items, rt) r).2 := by
  intro i x g hix hg
  simp only [addStep_startSegment]
  have hng := addStep_nextGroup host rt items r hr x
  have hnd2 := addStep_nodup host rt items r hnd hr
  obtain ⟨h1, h2, _⟩ := insertRoute_shape rt items r
  rw [addStep_table host rt items r hr] at hix hnd2 ⊢
  generalize (insertRoute rt items r).2 = idx at h1 h2 hix hng hnd2 ⊢
  have hlen : (items.take idx ++ r :: items.drop idx).length = items.length + 1 := by
    simp [List.length_take, List.length_drop]
    omega
  by_cases hreg : regrouped rt items idx r x
  · rw [hng.1 hreg] at hg
    have hgi : idx = g := Option.some.inj hg
    subst hgi
    obtain ⟨hpos, prev, hp, _, k, hk, hkx, hall⟩ := hreg
    have hkx2 : (items.take idx ++ r :: items.drop idx)[k]? = some x := by
      rw [getElem?_insert_lt items idx r k h1 hk]; exact hkx
    have hik : i = k := getElem?_inj_of_nodup hnd2 hix hkx2
    subst hik
    refine ⟨hk, by omega, fun m hm1 hm2 y hy => ?_⟩
    rw [getElem?_insert_lt items idx r m h1 hm2] at hy
    rw [hall m hm1 hm2 y hy, hall i (le_refl _) hk x hkx]
  · rw [hng.2 hreg] at hg
    rcases Nat.lt_trichotomy i idx with hi | hi | hi
    · rw [getElem?_insert_lt items idx r i h1 hi] at hix
      obtain ⟨hig, hgl, hrun⟩ := hinv i x g hix hg
      refine ⟨hig, by omega, fun m hm1 hm2 y hy => ?_⟩
      rw [getElem?_insert_lt items idx r m h1 (by omega)] at hy
      exact hrun m hm1 hm2 y hy
    · subst hi
      rw [getElem?_insert_eq items i r h1] at hix
      rw [← Option.some.inj hix, hfresh] at hg
      exact absurd hg (by simp)
    · exfalso
      have hi3 : i = (i - 1) + 1 := by omega
      rw [hi3, getElem?_insert_gt items idx r (i - 1) h1 (by omega)] at hix
      obtain ⟨hig, hgl, _⟩ := hinv (i - 1) x g hix hg
      omega

theorem foldl_addStep_skipSound (host : Nat) :
    ∀ (rs items : List Nat) (rt : Nat → HttpRoute),
      items.Nodup → SkipSound items rt → rs.Nodup →
      (∀ r ∈ rs, r ∉ items ∧ (rt r).nextGroup = none) →
      SkipSound (rs.foldl (addStep host) (items, rt)).1
        (rs.foldl (addStep host) (items, rt)).2 := by
  intro rs
  induction rs with
  | nil => intro items rt _ h _ _; exact h
  | cons r rs ih =>
    intro items rt hnd hinv hrs hnew
    rw [List.foldl_cons]
    have hr : r ∉ items := (hnew r (by simp)).1
    have hrs2 := List.nodup_cons.mp hrs
    refine ih _ _ (addStep_nodup host rt items r hnd hr)
      (addStep_skipSound host rt items r hnd hr (hnew r (by simp)).2 hinv) hrs2.2 ?_
    intro q hq
    have hq2 := hnew q (List.mem_cons_of_mem _ hq)
    constructor
    · intro hmem
      rcases (addStep_mem host rt items r q hr).mp hmem with h | h
      · exact hrs2.1 (h ▸ hq)
      · exact hq2.1 h
    · exact (addStep_nextGroup_of_not_mem host rt items r q hr hq2.1).trans hq2.2

/-- Claim C20: in the table reached from an empty table by adding pairwise distinct fresh
routes (`nextGroup` none) to one host, a route at index `i` that stores `nextGroup = g` has
`i < g`, `g` below the length of the table, and every route at an index from `i` up to `g` has
the start segment of the route at `i`. -/
theorem addRoutes_skip_sound (s : Http) (host : Nat) (rs : List Nat)
    (hempty : tableOf s host = []) (hdistinct : rs.Nodup)
    (hfresh : ∀ r ∈ rs, (s.routes r).nextGroup = none) (i x g : Nat)
    (hx : (tableOf (addRoutes s host rs) host)[i]? = some x)
    (hg : ((addRoutes s host rs).routes x).nextGroup = some g) :
    i < g ∧ g < (tableOf (addRoutes s host rs) host).length ∧
    ∀ m : Nat, i ≤ m → m < g → ∀ y, (tableOf (addRoutes s host rs) host)[m]? = some y →
      ((addRoutes s host rs).routes y).startSegment =
        ((addRoutes s host rs).routes x).startSegment := by
  have hstate := addRoutes_state host rs s
  have hinv := foldl_addStep_skipSound host rs [] s.routes List.nodup_nil
    (fun i x g hix => by simp at hix) hdistinct (fun r hr => ⟨by simp, hfresh r hr⟩)
  rw [hempty] at hstate
  rw [← hstate] at hinv
  exact hinv i x g hx hg

/-- Claim C20 at the table `[0, 1, 2, 3]` built from the sequence 0, 3, 1, 2: route 0 at
index 0 stores 2, and the routes at the indices 0 and 1 share its start segment. -/
theorem addRoutes_skip_sound_witness :
    0 < 2 ∧ 2 < (tableOf (addRoutes exampleHost 0 [0, 3, 1, 2]) 0).length ∧
    ∀ m : Nat, 0 ≤ m → m < 2 → ∀ y,
      (tableOf (addRoutes exampleHost 0 [0, 3, 1, 2]) 0)[m]? = some y →
        ((addRoutes exampleHost 0 [0, 3, 1, 2]).routes y).startSegment =
          ((addRoutes exampleHost 0 [0, 3, 1, 2]).routes 0).startSegment :=
  addRoutes_skip_sound exampleHost 0 [0, 3, 1, 2] (by decide) (by decide) (by decide) 0 0 2
    (by decide) (by decide)

end Http1
